import Mathlib

/-!
Verification development for the MacSnap2HTML Enhanced directory scanner and
its generated client browsing logic (source: `macsnap2html_gui.py`).

The filesystem is modelled as a tree of entries (`FSEntry` / `FSList`): a file
carries its OS-reported byte size, a directory carries the list of its entries
in `os.listdir` order.  String operations used by the code (`str.lower`,
`str.startswith`, comparison of lowered names by `list.sort(key=str.lower)`)
are re-implemented over the character lists of Lean strings so that every
definition evaluates by kernel reduction; they agree with Python's semantics on
the ASCII names treated here.  Presentational node fields that no verified
property depends on (absolute path, formatted size string, modification time,
icon class) are not modelled.
-/

/-- ASCII model of Python `str.lower` / JS `toLowerCase`. -/
def lowerStr (s : String) : String := ⟨s.data.map Char.toLower⟩

/-- Model of Python `str.startswith` for a literal pattern. -/
def startsW (s pat : String) : Bool := pat.data.isPrefixOf s.data

/-- Lexicographic comparison of character lists by code point, the order
Python uses on `str`. -/
def charListLe : List Char → List Char → Bool
  | [], _ => true
  | _ :: _, [] => false
  | a :: as, b :: bs =>
    if a.toNat < b.toNat then true
    else if b.toNat < a.toNat then false
    else charListLe as bs

/-- String comparison `a <= b` by code points (Python's `str` order). -/
def strLe (a b : String) : Bool := charListLe a.data b.data

/-- The population-pass exclusion filter of `scan_directory`
(`macsnap2html_gui.py` lines 108-111): keep a name iff it starts with none of
`.`, `~`, `$`. -/
def keepName (n : String) : Bool :=
  !(startsW n ".") && !(startsW n "~") && !(startsW n "$")

/-- Extension of a file name as computed by `os.path.splitext(name)[1]`:
the suffix from the last `.` that has some non-dot character before it
(leading dots of a base name never start an extension). -/
def splitextExt (s : String) : String :=
  let cs := s.data
  let idxs := (List.range cs.length).filter fun i =>
    (cs.getD i ' ' == '.') && (cs.take i).any (fun c => c != '.')
  match idxs.getLast? with
  | none => ""
  | some i => ⟨cs.drop i⟩

mutual
/-- A filesystem entry: a file with a byte size, or a directory with its
entries in `os.listdir` order. -/
inductive FSEntry : Type where
  | file (name : String) (size : Nat)
  | dir (name : String) (children : FSList)
/-- A list of filesystem entries (a separate mutual type so that structural
recursion over the tree is available). -/
inductive FSList : Type where
  | nil
  | cons (e : FSEntry) (rest : FSList)
end

def FSList.toList : FSList → List FSEntry
  | .nil => []
  | .cons e r => e :: r.toList

def FSEntry.name : FSEntry → String
  | .file n _ => n
  | .dir n _ => n

def FSEntry.isDir : FSEntry → Bool
  | .file _ _ => false
  | .dir _ _ => true

def FSEntry.childrenL : FSEntry → FSList
  | .file _ _ => .nil
  | .dir _ cs => cs

def FSEntry.fileSize : FSEntry → Nat
  | .file _ sz => sz
  | .dir _ _ => 0

mutual
/-- Height of an entry (files are leaves). -/
def FSEntry.height : FSEntry → Nat
  | .file _ _ => 0
  | .dir _ cs => FSList.heightL cs + 1
/-- Height of a list of entries. -/
def FSList.heightL : FSList → Nat
  | .nil => 0
  | .cons e r => max (FSEntry.height e) (FSList.heightL r)
end

mutual
/-- Total number of entries in a subtree, the entry itself included. -/
def FSEntry.countAll : FSEntry → Nat
  | .file _ _ => 1
  | .dir _ cs => 1 + FSList.countAllL cs
/-- Total number of entries below a directory listing. -/
def FSList.countAllL : FSList → Nat
  | .nil => 0
  | .cons e r => FSEntry.countAll e + FSList.countAllL r
end

mutual
/-- Number of entries the population pass visits in a subtree rooted at this
entry (the entry itself included): when `ih` (= `include_hidden`) is false,
entries failing `keepName` are skipped entirely and not descended into. -/
def FSEntry.countVis (ih : Bool) : FSEntry → Nat
  | .file _ _ => 1
  | .dir _ cs => 1 + FSList.countVisL ih cs
/-- Number of entries the population pass visits below a directory listing. -/
def FSList.countVisL (ih : Bool) : FSList → Nat
  | .nil => 0
  | .cons e r =>
    (if ih || keepName e.name then FSEntry.countVis ih e else 0) +
      FSList.countVisL ih r
end

mutual
/-- Contribution of one entry to `calculate_folder_size` of an ancestor
directory (`macsnap2html_gui.py` lines 67-81): `os.walk` descends into every
subdirectory whatever its name, and sums the sizes of all files except those
whose name starts with `~` or `$`.  The `include_hidden` flag plays no role
here. -/
def FSEntry.fszContrib : FSEntry → Nat
  | .file n sz => if startsW n "~" || startsW n "$" then 0 else sz
  | .dir _ cs => FSList.folderSz cs
/-- Sum of `fszContrib` over a directory listing. -/
def FSList.folderSz : FSList → Nat
  | .nil => 0
  | .cons e r => FSEntry.fszContrib e + FSList.folderSz r
end

/-- `DirectoryScanner.calculate_folder_size`: recursive size of a directory
with listing `cs`. -/
def calculate_folder_size (cs : FSList) : Nat := FSList.folderSz cs

/-- Stable insertion of an entry into a list sorted case-insensitively by
name; a new element goes after existing elements with a key `<=` its key,
reproducing the stable order of Python's `list.sort(key=str.lower)`. -/
def insertByNameCI (x : FSEntry) : List FSEntry → List FSEntry
  | [] => [x]
  | y :: ys =>
    if strLe (lowerStr y.name) (lowerStr x.name) then y :: insertByNameCI x ys
    else x :: y :: ys

/-- Model of `dirs.sort(key=str.lower)` / `files.sort(key=str.lower)`
(`macsnap2html_gui.py` lines 125-126): stable sort, case-insensitive on
names.  (A stable insertion sort and Python's stable mergesort produce the
same list for the same key.) -/
def sortByNameCI (l : List FSEntry) : List FSEntry :=
  l.foldl (fun acc x => insertByNameCI x acc) []

/-- Node identity: the code uses the strings `f"dir_{item_id}"` and
`f"file_{item_id}"`; we model the two disjoint namespaces as a flag together
with the shared counter value. -/
structure ItemId where
  isDir : Bool
  num : Nat
deriving DecidableEq, Repr

/-- One scanned node, with the fields of the dictionaries built in
`process_directory` that the verified properties depend on (path, formatted
size, modification time and icon class are presentational and omitted). -/
structure Item where
  id : ItemId
  name : String
  size_bytes : Nat
  is_dir : Bool
  level : Nat
  parent_id : Option ItemId
  children : List ItemId
  extension : String
deriving DecidableEq, Repr

/-- The mutable scanner state of `DirectoryScanner.scan_directory`: the
accumulated `self.items`, the three aggregate counters, the `item_id` counter,
the `processed` counter, and the recorded arguments of every
`progress_callback(processed, total_items)` invocation. -/
structure ScanState where
  items : List Item
  total_files : Nat
  total_folders : Nat
  total_size : Nat
  item_id : Nat
  processed : Nat
  progressCalls : List (Nat × Nat)
deriving DecidableEq, Repr

def initState : ScanState := ⟨[], 0, 0, 0, 0, 0, []⟩

/-- The folder dictionary built at `macsnap2html_gui.py` lines 138-152
(children start empty and are filled by the post-pass). -/
def mkDirItem (pid : Option ItemId) (lvl : Nat) (n : Nat) (nm : String)
    (sz : Nat) : Item :=
  ⟨⟨true, n⟩, nm, sz, true, lvl, pid, [], ""⟩

/-- The file dictionary built at `macsnap2html_gui.py` lines 179-193, with
`extension = os.path.splitext(file_name)[1].lower()`. -/
def mkFileItem (pid : Option ItemId) (lvl : Nat) (n : Nat) (nm : String)
    (sz : Nat) : Item :=
  ⟨⟨false, n⟩, nm, sz, false, lvl, pid, [], lowerStr (splitextExt nm)⟩

/-- Appending a folder node: lines 154-161 (append, `item_id += 1`,
`total_folders += 1`, `processed += 1`, progress callback). -/
def emitDir (total : Nat) (pid : Option ItemId) (lvl : Nat) (nm : String)
    (sz : Nat) (st : ScanState) : ScanState :=
  { st with
    items := st.items ++ [mkDirItem pid lvl st.item_id nm sz]
    item_id := st.item_id + 1
    total_folders := st.total_folders + 1
    processed := st.processed + 1
    progressCalls := st.progressCalls ++ [(st.processed + 1, total)] }

/-- Appending a file node: lines 195-202 (append, `item_id += 1`,
`total_files += 1`, `total_size += file_size`, `processed += 1`, progress
callback). -/
def emitFile (total : Nat) (pid : Option ItemId) (lvl : Nat) (nm : String)
    (sz : Nat) (st : ScanState) : ScanState :=
  { st with
    items := st.items ++ [mkFileItem pid lvl st.item_id nm sz]
    item_id := st.item_id + 1
    total_files := st.total_files + 1
    total_size := st.total_size + sz
    processed := st.processed + 1
    progressCalls := st.progressCalls ++ [(st.processed + 1, total)] }

/-- The `for file_name in files` loop of `process_directory`
(lines 169-205). -/
def scanFiles (total : Nat) (pid : Option ItemId) (lvl : Nat) :
    List FSEntry → ScanState → ScanState
  | [], st => st
  | f :: rest, st =>
    scanFiles total pid lvl rest (emitFile total pid lvl f.name f.fileSize st)

/-- The `for dir_name in dirs` loop of `process_directory` (lines 129-166):
emit the folder node (its size from `calculate_folder_size`), then recurse
into it with the fresh id as `parent_id`; `recur` is the recursive call
supplied by `scanList`. -/
def scanDirs (recur : Nat → FSList → ScanState → ScanState) (total : Nat)
    (pid : Option ItemId) (lvl : Nat) : List FSEntry → ScanState → ScanState
  | [], st => st
  | d :: rest, st =>
    let st1 := emitDir total pid lvl d.name (calculate_folder_size d.childrenL) st
    let st2 := recur st.item_id d.childrenL st1
    scanDirs recur total pid lvl rest st2

/-- `process_directory(current_path, parent_id, level)` (lines 103-208):
list the directory, apply the hidden/temp filter only when `include_hidden`
is false, split into directories and files, sort each case-insensitively,
process directories (each fully recursed) and then files.  `fuel` bounds the
recursion depth; every use instantiates it with a bound larger than the
height of the tree, so the zero-fuel branch is never taken there. -/
def scanList : Nat → Bool → Nat → Option ItemId → Nat → List FSEntry →
    ScanState → ScanState
  | 0, _, _, _, _, _, st => st
  | fuel + 1, ih, total, pid, lvl, es, st =>
    let kept := if ih then es else es.filter fun e => keepName e.name
    let ds := sortByNameCI (kept.filter fun e => e.isDir)
    let fls := sortByNameCI (kept.filter fun e => !e.isDir)
    let st1 := scanDirs
      (fun n cs s => scanList fuel ih total (some ⟨true, n⟩) (lvl + 1) cs.toList s)
      total pid lvl ds st
    scanFiles total pid lvl fls st1

/-- The counting pass of `scan_directory` (lines 91-97), a model of `os.walk`
with top-down pruning: when `include_hidden` is false, directories starting
with `.` are pruned (and not descended into) and files starting with `.`,
`~` or `$` are not counted; note that directories starting with `~` or `$`
are NOT pruned here, unlike in the population pass.  When `include_hidden`
is true nothing is filtered. -/
def walkCount : Nat → Bool → List FSEntry → Nat
  | 0, _, _ => 0
  | fuel + 1, ih, es =>
    let ds := es.filter fun e => e.isDir
    let fls := es.filter fun e => !e.isDir
    let keptD := if ih then ds else ds.filter fun e => !(startsW e.name ".")
    let keptF := if ih then fls else fls.filter fun e => keepName e.name
    keptD.length + keptF.length +
      (keptD.map fun d => walkCount fuel ih d.childrenL.toList).sum

/-- The ids of the items whose `parent_id` is `p`, in list order.  The
post-pass at lines 212-217 appends each item's id to its parent's `children`
while iterating `self.items` in order, so a parent's final `children` is
exactly this list. -/
def childIdsIn (items : List Item) (p : ItemId) : List ItemId :=
  (items.filter fun c => c.parent_id == some p).map fun c => c.id

/-- The parent/child post-pass of `scan_directory` (lines 212-217). -/
def buildChildren (items : List Item) : List Item :=
  items.map fun it => { it with children := childIdsIn items it.id }

/-- The `total_items` denominator computed by the counting pass for a root
with listing `cs`. -/
def scanTotal (ih : Bool) (cs : FSList) : Nat :=
  walkCount (FSList.heightL cs + 1) ih cs.toList

/-- `DirectoryScanner.scan_directory(root_path, include_hidden,
progress_callback)` (lines 83-217).  The root is `some cs` when the root
path is a readable directory with listing `cs`, and `none` when `os.listdir`
of the root raises `OSError` (path missing or unreadable): the code swallows
that error (`except (OSError, IOError): pass`), so the scan then completes
normally with the freshly reset empty state — there is no failure outcome. -/
def scan_directory (root : Option FSList) (ih : Bool) : ScanState :=
  match root with
  | none => initState
  | some cs =>
    let st := scanList (FSList.heightL cs + 1) ih (scanTotal ih cs) none 0
      cs.toList initState
    { st with items := buildChildren st.items }

/-- Outcome of the GUI's `generate_html` action (lines 1374-1460): the UI
refuses to start when the selected path does not exist
(`if not directory or not os.path.exists(directory): showerror; return`),
otherwise the scan runs and the document is generated from its result. -/
inductive GuiOutcome where
  | errorDialog
  | proceeds (result : ScanState)
deriving DecidableEq, Repr

/-- The existence guard plus scan of `generate_html`: `pathExists` models
`os.path.exists(directory)`; `root` is the scanner's view of the root
listing (`none` when listing it raises). -/
def generate_html_action (pathExists : Bool) (root : Option FSList)
    (ih : Bool) : GuiOutcome :=
  if pathExists then GuiOutcome.proceeds (scan_directory root ih)
  else GuiOutcome.errorDialog

/-- Model of JS `String.prototype.includes`: does the pattern occur as a
contiguous substring (an empty pattern always does). -/
def listIncludesFrom : List Char → List Char → Bool
  | _, [] => true
  | [], _ :: _ => false
  | c :: cs, p :: ps =>
    List.isPrefixOf (p :: ps) (c :: cs) || listIncludesFrom cs (p :: ps)

/-- JS `s.includes(pat)` on our string model. -/
def strIncludes (s pat : String) : Bool := listIncludesFrom s.data pat.data

/-- The `active_filter` values of the generated client
(`currentFilter` in the embedded script). -/
inductive JFilter where
  | all | folders | files | images | documents | videos | audio
deriving DecidableEq, Repr

/-- The fixed image extension list of `shouldShowItem`. -/
def imageExtsJS : List String :=
  [".jpg", ".jpeg", ".png", ".gif", ".bmp", ".svg", ".tiff", ".webp",
   ".heic", ".ico"]

/-- The fixed document extension list of `shouldShowItem`. -/
def documentExtsJS : List String :=
  [".pdf", ".doc", ".docx", ".txt", ".rtf", ".odt", ".pages", ".xls",
   ".xlsx", ".csv", ".ppt", ".pptx"]

/-- The fixed video extension list of `shouldShowItem`. -/
def videoExtsJS : List String :=
  [".mp4", ".avi", ".mov", ".mkv", ".wmv", ".flv", ".webm", ".m4v", ".3gp",
   ".mpg", ".mpeg"]

/-- The fixed audio extension list of `shouldShowItem`. -/
def audioExtsJS : List String :=
  [".mp3", ".wav", ".m4a", ".flac", ".aac", ".ogg", ".wma", ".mp2", ".aiff"]

/-- The client filter predicate `shouldShowItem(item)` of the generated
script: reject when the search term is non-empty and not contained
case-insensitively in the name; then `all` accepts, `folders`/`files` match
`is_dir`, and the four category filters accept non-directories whose
lower-cased extension is in the fixed list; everything else is rejected. -/
def shouldShowItem (search : String) (filt : JFilter) (it : Item) : Bool :=
  if (search != "") && !(strIncludes (lowerStr it.name) (lowerStr search)) then
    false
  else
    match filt with
    | .all => true
    | .folders => it.is_dir
    | .files => !it.is_dir
    | .images => !it.is_dir && imageExtsJS.contains (lowerStr it.extension)
    | .documents => !it.is_dir && documentExtsJS.contains (lowerStr it.extension)
    | .videos => !it.is_dir && videoExtsJS.contains (lowerStr it.extension)
    | .audio => !it.is_dir && audioExtsJS.contains (lowerStr it.extension)

/-- JS `window.itemMap.get(id)`, with the map built by inserting every record
of `fileData` keyed by id (ids are unique in scanner output, so the first
match is the entry). -/
def lookupItem (items : List Item) (i : ItemId) : Option Item :=
  items.find? fun it => it.id == i

/-- JS `buildHierarchy()`: every record is copied with empty `children`, then
each record's id is pushed onto its parent's `children` in `fileData` order —
the same computation as the scanner's own post-pass. -/
def buildHierarchy (fileData : List Item) : List Item :=
  buildChildren (fileData.map fun it => { it with children := [] })

/-- What `renderFolderContents` leaves in the content pane: either the
"This folder is empty" placeholder, or the filtered list of child ids. -/
structure ContentPane where
  emptyPlaceholder : Bool
  shown : List ItemId
deriving DecidableEq, Repr

/-- JS `renderFolderContents(folder)`: an empty `children` renders the
empty-folder placeholder; otherwise each child found in the map and passing
`shouldShowItem` is appended. -/
def renderFolderContents (itemMap : List Item) (folder : Item)
    (search : String) (filt : JFilter) : ContentPane :=
  if folder.children.isEmpty then ⟨true, []⟩
  else
    ⟨false, folder.children.filter fun cid =>
      match lookupItem itemMap cid with
      | some c => shouldShowItem search filt c
      | none => false⟩

/-- The four statistics rendered by JS `updateFolderStats(folder)`. -/
structure FolderStats where
  folders : Nat
  files : Nat
  size : String
  total : Nat
deriving DecidableEq, Repr

/-- The JS `sizes` array of `formatSize`. -/
def jsSizes : List String := ["B", "KB", "MB", "GB", "TB"]

/-- Decimal rendering of a tenths value, approximating `toFixed(1)` (exact
rounding of the IEEE quotient is not modelled; no verified property depends
on the digits). -/
def natToFixed1 (tenths : Nat) : String :=
  toString (tenths / 10) ++ "." ++ toString (tenths % 10)

/-- JS `formatSize(bytes)`: `'0 B'` for zero, otherwise
`i = floor(log(bytes)/log(1024))` and `sizes[i]` — which is `undefined` when
`i` exceeds the array. -/
def jsFormatSize (bytes : Nat) : String :=
  if bytes = 0 then "0 B"
  else
    let i := Nat.log 1024 bytes
    natToFixed1 (bytes * 10 / 1024 ^ i) ++ " " ++ jsSizes.getD i "undefined"

/-- JS `updateFolderStats(folder)`: counts of direct children found in the
map that are directories resp. files, the formatted sum of the direct
children's `size_bytes` (missing ids contribute 0), and the raw child
count. -/
def updateFolderStats (itemMap : List Item) (folder : Item) : FolderStats :=
  let cs := folder.children
  let fdrs := cs.filter fun cid =>
    match lookupItem itemMap cid with
    | some it => it.is_dir
    | none => false
  let fls := cs.filter fun cid =>
    match lookupItem itemMap cid with
    | some it => !it.is_dir
    | none => false
  let totalSize := (cs.map fun cid =>
    match lookupItem itemMap cid with
    | some it => it.size_bytes
    | none => 0).sum
  ⟨fdrs.length, fls.length, jsFormatSize totalSize, cs.length⟩

/-- JS `initExplorer()`: build the hierarchy, then
`fileData.find(item => !item.parent_id)`; only when such a record exists is
`navigateToFolder` invoked, rendering the content pane and statistics (with
the initial empty search and `all` filter).  When `fileData` is empty nothing
is rendered at all. -/
def initExplorer (fileData : List Item) : Option (ContentPane × FolderStats) :=
  let itemMap := buildHierarchy fileData
  match fileData.find? fun it => it.parent_id == none with
  | none => none
  | some rootIt =>
    match lookupItem itemMap rootIt.id with
    | none => none
    | some folder =>
      some (renderFolderContents itemMap folder "" JFilter.all,
        updateFolderStats itemMap folder)

/-- The Python `size_names` table of `format_size`. -/
def sizeNames : List String := ["B", "KB", "MB", "GB", "TB"]

/-- The `while size_bytes >= 1024.0 and i < len(size_names) - 1` loop of
`format_size`, over exact rationals (division by 1024 is exact in both
binary floating point and in `ℚ`, so the loop takes the same branches as the
Python float loop). -/
def fsLoop (x : ℚ) (i : Nat) : ℚ × Nat :=
  if h : 1024 ≤ x ∧ i < sizeNames.length - 1 then fsLoop (x / 1024) (i + 1)
  else (x, i)
termination_by sizeNames.length - 1 - i
decreasing_by
  omega

/-- Decimal rendering of a rational with `dp` digits, approximating Python's
`f"{x:.{dp}f}"` (float rounding and zero padding are not modelled; no
verified property depends on the digits). -/
def ratToFixed (x : ℚ) (dp : Nat) : String :=
  let scaled : ℤ := ⌊x * (10 : ℚ) ^ dp⌋
  toString (scaled / (10 : ℤ) ^ dp) ++ "." ++ toString (scaled % (10 : ℤ) ^ dp)

/-- Python `format_size(size_bytes, decimal_places=1)`
(`macsnap2html_gui.py` lines 18-27). -/
def format_size (size_bytes : Nat) (decimal_places : Nat := 1) : String :=
  if size_bytes = 0 then "0 B"
  else
    let r := fsLoop (size_bytes : ℚ) 0
    ratToFixed r.1 decimal_places ++ " " ++ sizeNames.getD r.2 ""

/-! ## Sample items used by concrete statements -/

/-- A file node `a.png` with extension `.png`, as in the spec's filtering
example. -/
def samplePng : Item := ⟨⟨false, 0⟩, "a.png", 0, false, 0, none, [], ".png"⟩

/-- A file node `b.txt` with extension `.txt`, as in the spec's filtering
example. -/
def sampleTxt : Item := ⟨⟨false, 1⟩, "b.txt", 0, false, 0, none, [], ".txt"⟩

/-! ## C4: behaviour on a missing or unreadable root -/

/-- C4 counterexample: with an existing but unreadable root (the existence
check passes, listing the root raises and is swallowed), the operation does
NOT fail with any `PathNotFound`/`NotReadable` error kind: generation
proceeds with a normal, empty scan result — indistinguishable from scanning
an empty directory — and the document is then written from it. -/
theorem c4_counterexample :
    generate_html_action true none false =
      GuiOutcome.proceeds (scan_directory (some FSList.nil) false) ∧
    scan_directory none false = scan_directory (some FSList.nil) false := by
  decide

/-- C4 (amended): the scanner itself has no failure outcome — scanning a
missing or unreadable root completes normally with an empty result (no
nodes, all counters zero, no progress calls), identical to scanning an empty
directory; separately, the GUI layer refuses a non-existing path with an
error dialog before any scan or write, while for an existing path it always
proceeds with the scan result. -/
theorem c4_missing_root_yields_empty_result (ih : Bool) (root : Option FSList) :
    scan_directory none ih = scan_directory (some FSList.nil) ih ∧
    (scan_directory none ih).items = [] ∧
    (scan_directory none ih).total_files = 0 ∧
    (scan_directory none ih).total_folders = 0 ∧
    (scan_directory none ih).total_size = 0 ∧
    (scan_directory none ih).progressCalls = [] ∧
    generate_html_action false root ih = GuiOutcome.errorDialog ∧
    generate_html_action true root ih =
      GuiOutcome.proceeds (scan_directory root ih) := by
  cases ih <;> exact ⟨by decide, by decide, by decide, by decide, by decide,
    by decide, rfl, rfl⟩

/-! ## C8: rendering a scan with no nodes -/

/-- C8 counterexample: scanning a root directory with zero (included)
children yields an empty node list, and on such a `fileData` the client's
`initExplorer` finds no record with a null `parent_id`, so it never calls
`navigateToFolder`: neither the empty-folder placeholder nor any folder
statistics are rendered, contradicting the claimed placeholder and
`{folders:0, files:0, size:0 B, total:0}` display. -/
theorem c8_counterexample :
    (scan_directory (some FSList.nil) false).items = [] ∧
    initExplorer ((scan_directory (some FSList.nil) false).items) = none := by
  decide

/-- C8 (amended): a scan of an empty root produces an empty node list, on
which the client renders nothing at all (no placeholder, no statistics);
the empty-folder placeholder together with statistics
`{folders:0, files:0, size:'0 B', total:0}` is what `navigateToFolder`
renders for any directory node whose `children` list is empty. -/
theorem c8_empty_folder_rendering (itemMap : List Item) (folder : Item)
    (h : folder.children = []) :
    initExplorer ((scan_directory (some FSList.nil) false).items) = none ∧
    renderFolderContents itemMap folder "" JFilter.all =
      ⟨true, []⟩ ∧
    updateFolderStats itemMap folder = ⟨0, 0, "0 B", 0⟩ := by
  refine ⟨by decide, ?_, ?_⟩
  · simp [renderFolderContents, h]
  · simp [updateFolderStats, h, jsFormatSize]

/-- Witness for `c8_empty_folder_rendering` at a concrete childless folder
node. -/
theorem c8_empty_folder_rendering_witness :
    (⟨⟨true, 0⟩, "d", 0, true, 0, none, [], ""⟩ : Item).children = [] ∧
    updateFolderStats [] ⟨⟨true, 0⟩, "d", 0, true, 0, none, [], ""⟩ =
      ⟨0, 0, "0 B", 0⟩ :=
  ⟨rfl, (c8_empty_folder_rendering []
    ⟨⟨true, 0⟩, "d", 0, true, 0, none, [], ""⟩ rfl).2.2⟩

/-! ## C9: the client filter predicate -/

/-- C9: the filter predicate rejects any node whose name does not contain a
non-empty search term case-insensitively; under `all` it accepts every node
passing the search; under `images` (with the search passing) it accepts
exactly the non-directory nodes whose lower-cased extension is in the fixed
image list; and on the two concrete nodes `a.png` / `b.txt` filter `images`
yields exactly `[a.png]` while search term `b` under `all` yields exactly
`[b.txt]`. -/
theorem c9_shouldShowItem_spec :
    (∀ s filt it, s ≠ "" →
      strIncludes (lowerStr it.name) (lowerStr s) = false →
      shouldShowItem s filt it = false) ∧
    (∀ s it, s = "" ∨ strIncludes (lowerStr it.name) (lowerStr s) = true →
      shouldShowItem s JFilter.all it = true) ∧
    (∀ s it, s = "" ∨ strIncludes (lowerStr it.name) (lowerStr s) = true →
      shouldShowItem s JFilter.images it =
        (!it.is_dir && imageExtsJS.contains (lowerStr it.extension))) ∧
    [samplePng, sampleTxt].filter (shouldShowItem "" JFilter.images) =
      [samplePng] ∧
    [samplePng, sampleTxt].filter (shouldShowItem "b" JFilter.all) =
      [sampleTxt] := by
  refine ⟨?_, ?_, ?_, by decide, by decide⟩
  · intro s filt it hs hinc
    have hs' : (s != "") = true := bne_iff_ne.mpr hs
    simp [shouldShowItem, hs', hinc]
  · intro s it h
    rcases h with h | h <;> simp [shouldShowItem, h]
  · intro s it h
    rcases h with h | h <;> simp [shouldShowItem, h]

/-- Witness for `c9_shouldShowItem_spec`, applying each hypothesis-bearing
conjunct at concrete inputs. -/
theorem c9_shouldShowItem_spec_witness :
    shouldShowItem "zz" JFilter.all samplePng = false ∧
    shouldShowItem "" JFilter.all samplePng = true ∧
    shouldShowItem "" JFilter.images sampleTxt =
      (!sampleTxt.is_dir && imageExtsJS.contains (lowerStr sampleTxt.extension)) :=
  ⟨c9_shouldShowItem_spec.1 "zz" JFilter.all samplePng (by decide) (by decide),
   c9_shouldShowItem_spec.2.1 "" samplePng (Or.inl rfl),
   c9_shouldShowItem_spec.2.2.1 "" sampleTxt (Or.inl rfl)⟩

/-! ## C10: format_size unit selection -/

/-- The loop index never leaves the unit table: starting at `i ≤ 4` it ends
at most at 4 (the table has five entries `B` … `TB`). -/
theorem fsLoop_snd_le (x : ℚ) (i : Nat) (h : i ≤ 4) : (fsLoop x i).2 ≤ 4 := by
  induction x, i using fsLoop.induct with
  | case1 x i hc ih =>
    rw [fsLoop, dif_pos hc]
    have h2 := hc.2
    simp only [sizeNames, List.length_cons, List.length_nil] at h2
    exact ih (by omega)
  | case2 x i hc =>
    rw [fsLoop, dif_neg hc]
    exact h

/-- One unfolding of the loop when the guard holds. -/
theorem fsLoop_step (x : ℚ) (i : Nat) (h1 : 1024 ≤ x) (h2 : i < 4) :
    fsLoop x i = fsLoop (x / 1024) (i + 1) := by
  rw [fsLoop]
  exact dif_pos ⟨h1, by simpa [sizeNames] using h2⟩

/-- The loop stops at index 4 whatever the value. -/
theorem fsLoop_stop (x : ℚ) : fsLoop x 4 = (x, 4) := by
  rw [fsLoop]
  exact dif_neg (by simp [sizeNames])

/-- Values of at least `1024^5` run the loop to the last unit index. -/
theorem fsLoop_clamp (x : ℚ) (h : 1024 ^ 5 ≤ x) : (fsLoop x 0).2 = 4 := by
  have h1024 : (0 : ℚ) < 1024 := by norm_num
  have step : ∀ k : ℕ, ∀ y : ℚ, (1024 : ℚ) ^ (k + 1) ≤ y →
      1024 ≤ y ∧ 1024 ^ k ≤ y / 1024 := by
    intro k y hk
    constructor
    · calc (1024 : ℚ) = 1024 ^ 1 := by norm_num
        _ ≤ 1024 ^ (k + 1) := by
          apply pow_le_pow_right₀ (by norm_num)
          omega
        _ ≤ y := hk
    · rw [le_div_iff₀ h1024]
      calc (1024 : ℚ) ^ k * 1024 = 1024 ^ (k + 1) := by ring
        _ ≤ y := hk
  obtain ⟨a0, h4⟩ := step 4 x h
  rw [fsLoop_step x 0 a0 (by omega)]
  obtain ⟨a1, h3⟩ := step 3 _ h4
  rw [fsLoop_step _ 1 a1 (by omega)]
  obtain ⟨a2, h2⟩ := step 2 _ h3
  rw [fsLoop_step _ 2 a2 (by omega)]
  obtain ⟨a3, h1⟩ := step 1 _ h2
  rw [fsLoop_step _ 3 a3 (by omega)]
  rw [fsLoop_stop]

/-- An index of at most 4 selects an actual entry of the unit table. -/
theorem sizeNames_getD_mem (i : Nat) (h : i ≤ 4) :
    sizeNames.getD i "" ∈ sizeNames := by
  have : i = 0 ∨ i = 1 ∨ i = 2 ∨ i = 3 ∨ i = 4 := by omega
  rcases this with h' | h' | h' | h' | h' <;> subst h' <;> simp [sizeNames]

/-- C10: `format_size` is total; zero formats as `0 B`; for a nonzero byte
count the result is the formatted mantissa followed by the unit selected by
the loop, whose index stays within the five-entry table (so the unit is one
of `B`, `KB`, `MB`, `GB`, `TB`); and byte counts of at least `1024^5` end at
the clamped final unit `TB` instead of indexing past the table. -/
theorem c10_format_size_unit (n : Nat) :
    format_size 0 = "0 B" ∧
    (fsLoop (n : ℚ) 0).2 ≤ 4 ∧
    sizeNames.getD (fsLoop (n : ℚ) 0).2 "" ∈ sizeNames ∧
    (n ≠ 0 → format_size n =
      ratToFixed (fsLoop (n : ℚ) 0).1 1 ++ " " ++
        sizeNames.getD (fsLoop (n : ℚ) 0).2 "") ∧
    (1024 ^ 5 ≤ n → sizeNames.getD (fsLoop (n : ℚ) 0).2 "" = "TB") := by
  have hle := fsLoop_snd_le (n : ℚ) 0 (by omega)
  refine ⟨rfl, hle, sizeNames_getD_mem _ hle, ?_, ?_⟩
  · intro hn
    simp [format_size, hn]
  · intro hclamp
    have hc : (1024 : ℚ) ^ 5 ≤ (n : ℚ) := by
      have := Nat.cast_le (α := ℚ) |>.mpr hclamp
      push_cast at this
      exact this
    rw [fsLoop_clamp _ hc]
    simp [sizeNames]

/-- Witness for `c10_format_size_unit` at the clamp threshold `1024^5`. -/
theorem c10_format_size_unit_witness :
    ((1024 : Nat) ^ 5 ≠ 0) ∧ ((1024 : Nat) ^ 5 ≤ 1024 ^ 5) ∧
    sizeNames.getD (fsLoop (((1024 : Nat) ^ 5 : Nat) : ℚ) 0).2 "" = "TB" :=
  ⟨by norm_num, le_refl _,
    (c10_format_size_unit (1024 ^ 5)).2.2.2.2 (le_refl _)⟩

/-! ## C6: aggregate counters -/

/-- Sum of `size_bytes` over the file-type nodes of a node list. -/
def sumFileSizes (items : List Item) : Nat :=
  ((items.filter fun it => !it.is_dir).map fun it => it.size_bytes).sum

/-- Invariant tying the aggregate counters to the accumulated node list. -/
def CountersOk (st : ScanState) : Prop :=
  st.total_files + st.total_folders = st.items.length ∧
  st.total_size = sumFileSizes st.items

theorem sumFileSizes_append (l1 l2 : List Item) :
    sumFileSizes (l1 ++ l2) = sumFileSizes l1 + sumFileSizes l2 := by
  simp [sumFileSizes, List.filter_append]

theorem countersOk_emitDir (total : Nat) (pid : Option ItemId) (lvl : Nat)
    (nm : String) (sz : Nat) (st : ScanState) (h : CountersOk st) :
    CountersOk (emitDir total pid lvl nm sz st) := by
  obtain ⟨h1, h2⟩ := h
  constructor
  · simp [emitDir, ← h1]
    omega
  · simp [emitDir, sumFileSizes_append, h2, sumFileSizes, mkDirItem]

theorem countersOk_emitFile (total : Nat) (pid : Option ItemId) (lvl : Nat)
    (nm : String) (sz : Nat) (st : ScanState) (h : CountersOk st) :
    CountersOk (emitFile total pid lvl nm sz st) := by
  obtain ⟨h1, h2⟩ := h
  constructor
  · simp [emitFile, ← h1]
    omega
  · simp [emitFile, sumFileSizes_append, h2, sumFileSizes, mkFileItem]

theorem countersOk_scanFiles (total : Nat) (pid : Option ItemId) (lvl : Nat) :
    ∀ fls st, CountersOk st → CountersOk (scanFiles total pid lvl fls st)
  | [], _, h => h
  | f :: rest, st, h =>
    countersOk_scanFiles total pid lvl rest _
      (countersOk_emitFile total pid lvl f.name f.fileSize st h)

theorem countersOk_scanDirs (recur : Nat → FSList → ScanState → ScanState)
    (total : Nat) (pid : Option ItemId) (lvl : Nat)
    (hrec : ∀ n cs s, CountersOk s → CountersOk (recur n cs s)) :
    ∀ ds st, CountersOk st → CountersOk (scanDirs recur total pid lvl ds st)
  | [], _, h => h
  | d :: rest, st, h =>
    countersOk_scanDirs recur total pid lvl hrec rest _
      (hrec st.item_id d.childrenL _
        (countersOk_emitDir total pid lvl d.name
          (calculate_folder_size d.childrenL) st h))

theorem countersOk_scanList :
    ∀ (fuel : Nat) (ih : Bool) (total : Nat) (pid : Option ItemId) (lvl : Nat)
      (es : List FSEntry) (st : ScanState), CountersOk st →
      CountersOk (scanList fuel ih total pid lvl es st)
  | 0, _, _, _, _, _, _, h => h
  | fuel + 1, ih, total, pid, lvl, es, st, h => by
    simp only [scanList]
    exact countersOk_scanFiles total pid lvl _ _
      (countersOk_scanDirs _ total pid lvl
        (fun n cs s hs => countersOk_scanList fuel ih total
          (some ⟨true, n⟩) (lvl + 1) cs.toList s hs) _ st h)

theorem sumFileSizes_buildChildren (l : List Item) :
    sumFileSizes (buildChildren l) = sumFileSizes l := by
  unfold buildChildren sumFileSizes
  rw [List.filter_map]
  simp only [Function.comp_def, List.map_map]

/-- C6: for every scan, `total_files + total_folders` equals the number of
nodes in the result, and `total_size` equals the sum of `size_bytes` over
the file-type nodes only (directory sizes are not double-counted). -/
theorem c6_counters_match_nodes (root : Option FSList) (ih : Bool) :
    (scan_directory root ih).total_files +
      (scan_directory root ih).total_folders =
      (scan_directory root ih).items.length ∧
    (scan_directory root ih).total_size =
      sumFileSizes (scan_directory root ih).items := by
  cases root with
  | none => exact ⟨rfl, rfl⟩
  | some cs =>
    have h := countersOk_scanList (FSList.heightL cs + 1) ih (scanTotal ih cs)
      none 0 cs.toList initState ⟨rfl, rfl⟩
    obtain ⟨h1, h2⟩ := h
    constructor
    · simpa [scan_directory, buildChildren] using h1
    · simpa [scan_directory, sumFileSizes_buildChildren] using h2

/-! ## A pure mirror of the emission performed by `scanList`

`scanList` threads one mutable state; for the structural claims we
characterise it by the pure list of nodes it appends.  Every emission
appends exactly one node, bumps `item_id` and `processed` by one, adds to
the matching counter and records one progress call, so the whole effect of a
call is `applyEmit` of the emitted list. -/

/-- The successive `(processed, total)` arguments of `k` progress-callback
invocations performed after `start` items had already been processed. -/
def callsFrom (total start k : Nat) : List (Nat × Nat) :=
  (List.range' (start + 1) k).map fun p => (p, total)

/-- Cumulative effect on the scanner state of emitting the node list `P`. -/
def applyEmit (total : Nat) (P : List Item) (st : ScanState) : ScanState :=
  { st with
    items := st.items ++ P
    item_id := st.item_id + P.length
    total_folders := st.total_folders + (P.filter fun it => it.is_dir).length
    total_files := st.total_files + (P.filter fun it => !it.is_dir).length
    total_size := st.total_size + sumFileSizes P
    processed := st.processed + P.length
    progressCalls := st.progressCalls ++ callsFrom total st.processed P.length }

/-- The nodes emitted by the file loop for the sorted file list `fls`,
starting at id counter `n`. -/
def emitFilesP (pid : Option ItemId) (lvl : Nat) : Nat → List FSEntry → List Item
  | _, [] => []
  | n, f :: rest =>
    mkFileItem pid lvl n f.name f.fileSize :: emitFilesP pid lvl (n + 1) rest

/-- The nodes emitted by the directory loop for the sorted directory list
`ds` starting at id counter `n`: for each directory its own node followed by
its recursively emitted subtree (`recur m cs` is the subtree emission for a
directory that received id `m`). -/
def emitDirsP (recur : Nat → FSList → List Item) (pid : Option ItemId)
    (lvl : Nat) : Nat → List FSEntry → List Item
  | _, [] => []
  | n, d :: rest =>
    let sub := recur n d.childrenL
    (mkDirItem pid lvl n d.name (calculate_folder_size d.childrenL) :: sub) ++
      emitDirsP recur pid lvl (n + 1 + sub.length) rest

/-- The full list of nodes emitted by `scanList fuel ih total pid lvl es`
when the state's id counter is `n`. -/
def emitL : Nat → Bool → Option ItemId → Nat → Nat → List FSEntry → List Item
  | 0, _, _, _, _, _ => []
  | fuel + 1, ih, pid, lvl, n, es =>
    let kept := if ih then es else es.filter fun e => keepName e.name
    let ds := sortByNameCI (kept.filter fun e => e.isDir)
    let fls := sortByNameCI (kept.filter fun e => !e.isDir)
    let dItems := emitDirsP
      (fun m cs => emitL fuel ih (some ⟨true, m⟩) (lvl + 1) (m + 1) cs.toList)
      pid lvl n ds
    dItems ++ emitFilesP pid lvl (n + dItems.length) fls

theorem callsFrom_append (total start a b : Nat) :
    callsFrom total start (a + b) =
      callsFrom total start a ++ callsFrom total (start + a) b := by
  unfold callsFrom
  rw [Nat.add_comm a b, ← List.range'_append_1 (start + 1) a b,
    List.map_append, Nat.add_right_comm start 1 a]

theorem applyEmit_nil (total : Nat) (st : ScanState) :
    applyEmit total [] st = st := by
  simp [applyEmit, callsFrom, sumFileSizes]

theorem applyEmit_append (total : Nat) (P Q : List Item) (st : ScanState) :
    applyEmit total Q (applyEmit total P st) = applyEmit total (P ++ Q) st := by
  simp [applyEmit, sumFileSizes_append, List.filter_append, callsFrom_append,
    List.append_assoc, Nat.add_assoc]

theorem emitFile_eq_applyEmit (total : Nat) (pid : Option ItemId) (lvl : Nat)
    (nm : String) (sz : Nat) (st : ScanState) :
    emitFile total pid lvl nm sz st =
      applyEmit total [mkFileItem pid lvl st.item_id nm sz] st := by
  simp [emitFile, applyEmit, mkFileItem, sumFileSizes, callsFrom]

theorem emitDir_eq_applyEmit (total : Nat) (pid : Option ItemId) (lvl : Nat)
    (nm : String) (sz : Nat) (st : ScanState) :
    emitDir total pid lvl nm sz st =
      applyEmit total [mkDirItem pid lvl st.item_id nm sz] st := by
  simp [emitDir, applyEmit, mkDirItem, sumFileSizes, callsFrom]

theorem scanFiles_char (total : Nat) (pid : Option ItemId) (lvl : Nat) :
    ∀ fls st, scanFiles total pid lvl fls st =
      applyEmit total (emitFilesP pid lvl st.item_id fls) st
  | [], st => by simp [scanFiles, emitFilesP, applyEmit_nil]
  | f :: rest, st => by
    rw [scanFiles, scanFiles_char total pid lvl rest, emitFile_eq_applyEmit,
      applyEmit_append]
    rfl

theorem scanDirs_char (recur : Nat → FSList → ScanState → ScanState)
    (PR : Nat → FSList → List Item) (total : Nat) (pid : Option ItemId)
    (lvl : Nat)
    (hrec : ∀ m cs s, s.item_id = m + 1 →
      recur m cs s = applyEmit total (PR m cs) s) :
    ∀ ds st, scanDirs recur total pid lvl ds st =
      applyEmit total (emitDirsP PR pid lvl st.item_id ds) st
  | [], st => by simp [scanDirs, emitDirsP, applyEmit_nil]
  | d :: rest, st => by
    rw [scanDirs]
    rw [hrec st.item_id d.childrenL _ (by simp [emitDir])]
    rw [scanDirs_char recur PR total pid lvl hrec rest]
    rw [emitDir_eq_applyEmit, applyEmit_append, applyEmit_append]
    rfl

theorem scanList_char :
    ∀ (fuel : Nat) (ih : Bool) (total : Nat) (pid : Option ItemId) (lvl : Nat)
      (es : List FSEntry) (st : ScanState),
      scanList fuel ih total pid lvl es st =
        applyEmit total (emitL fuel ih pid lvl st.item_id es) st
  | 0, ih, total, pid, lvl, es, st => by
    simp [scanList, emitL, applyEmit_nil]
  | fuel + 1, ih, total, pid, lvl, es, st => by
    rw [scanList]
    rw [scanDirs_char _
      (fun m cs => emitL fuel ih (some ⟨true, m⟩) (lvl + 1) (m + 1) cs.toList)
      total pid lvl
      (fun m cs s hs => by
        rw [scanList_char fuel ih total (some ⟨true, m⟩) (lvl + 1) cs.toList s,
          hs])]
    rw [scanFiles_char, applyEmit_append]
    rfl

/-! ## Properties of the case-insensitive stable sort -/

/-- The case-insensitive name order used by the scanner's sorts. -/
def entLeCI (a b : FSEntry) : Prop :=
  strLe (lowerStr a.name) (lowerStr b.name) = true

theorem charListLe_total (a b : List Char) :
    charListLe a b = true ∨ charListLe b a = true := by
  induction a generalizing b with
  | nil => left; rfl
  | cons x xs ihx =>
    cases b with
    | nil => right; rfl
    | cons y ys =>
      simp only [charListLe]
      rcases Nat.lt_trichotomy x.toNat y.toNat with h | h | h
      · left; simp [h]
      · have h1 : ¬ x.toNat < y.toNat := by omega
        have h2 : ¬ y.toNat < x.toNat := by omega
        rcases ihx ys with hh | hh
        · left; simp [h1, h2, hh]
        · right; simp [h1, h2, hh]
      · right; simp [h]

theorem charListLe_trans {a b c : List Char} (h1 : charListLe a b = true)
    (h2 : charListLe b c = true) : charListLe a c = true := by
  induction a generalizing b c with
  | nil => rfl
  | cons x xs ihx =>
    cases b with
    | nil => simp [charListLe] at h1
    | cons y ys =>
      cases c with
      | nil => simp [charListLe] at h2
      | cons z zs =>
        simp only [charListLe] at h1 h2 ⊢
        rcases Nat.lt_trichotomy x.toNat y.toNat with hxy | hxy | hxy <;>
          rcases Nat.lt_trichotomy y.toNat z.toNat with hyz | hyz | hyz <;>
          simp [hxy, hyz, Nat.lt_asymm, Nat.lt_irrefl] at h1 h2 ⊢ <;>
          first
          | omega
          | (exact ihx h1 h2)

theorem entLeCI_total (a b : FSEntry) : entLeCI a b ∨ entLeCI b a :=
  charListLe_total _ _

theorem entLeCI_trans {a b c : FSEntry} (h1 : entLeCI a b) (h2 : entLeCI b c) :
    entLeCI a c :=
  charListLe_trans h1 h2

theorem insertByNameCI_perm (x : FSEntry) (l : List FSEntry) :
    List.Perm (insertByNameCI x l) (x :: l) := by
  induction l with
  | nil => exact List.Perm.refl _
  | cons y ys ihl =>
    simp only [insertByNameCI]
    split
    · exact (ihl.cons y).trans (List.Perm.swap x y ys)
    · exact List.Perm.refl _

theorem foldl_insert_perm (l acc : List FSEntry) :
    List.Perm (l.foldl (fun a x => insertByNameCI x a) acc) (l ++ acc) := by
  induction l generalizing acc with
  | nil => simp
  | cons x xs ihl =>
    simp only [List.foldl_cons, List.cons_append]
    have h1 := ihl (insertByNameCI x acc)
    have h2 : List.Perm (xs ++ insertByNameCI x acc) (xs ++ x :: acc) :=
      List.Perm.append_left xs (insertByNameCI_perm x acc)
    exact (h1.trans h2).trans List.perm_middle

theorem sortByNameCI_perm (l : List FSEntry) :
    List.Perm (sortByNameCI l) l := by
  have h := foldl_insert_perm l []
  rw [List.append_nil] at h
  exact h

theorem mem_sortByNameCI {x : FSEntry} {l : List FSEntry} :
    x ∈ sortByNameCI l ↔ x ∈ l :=
  (sortByNameCI_perm l).mem_iff

theorem pairwise_insertByNameCI {x : FSEntry} {l : List FSEntry}
    (h : l.Pairwise entLeCI) : (insertByNameCI x l).Pairwise entLeCI := by
  induction l with
  | nil => simp [insertByNameCI]
  | cons y ys ihl =>
    obtain ⟨hy, hys⟩ := List.pairwise_cons.mp h
    simp only [insertByNameCI]
    split
    · rename_i hle
      refine List.pairwise_cons.mpr ⟨?_, ihl hys⟩
      intro z hz
      rcases List.mem_cons.mp ((insertByNameCI_perm x ys).mem_iff.mp hz) with
        hz' | hz'
      · subst hz'
        exact hle
      · exact hy z hz'
    · rename_i hnle
      have hxy : entLeCI x y := by
        rcases entLeCI_total x y with hh | hh
        · exact hh
        · exact absurd hh hnle
      refine List.pairwise_cons.mpr ⟨?_, h⟩
      intro z hz
      rcases List.mem_cons.mp hz with hz' | hz'
      · subst hz'
        exact hxy
      · exact entLeCI_trans hxy (hy z hz')

theorem sortByNameCI_sorted (l : List FSEntry) :
    (sortByNameCI l).Pairwise entLeCI := by
  have gen : ∀ (m acc : List FSEntry), acc.Pairwise entLeCI →
      (m.foldl (fun a x => insertByNameCI x a) acc).Pairwise entLeCI := by
    intro m
    induction m with
    | nil => intro acc h; exact h
    | cons x xs ihm =>
      intro acc h
      exact ihm (insertByNameCI x acc) (pairwise_insertByNameCI h)
  exact gen l [] (by simp)

/-! ## Structure of the emitted node list -/

/-- The node list emitted by the scan of a root listing `cs` (before the
parent/child post-pass). -/
def scanEmitted (ih : Bool) (cs : FSList) : List Item :=
  emitL (FSList.heightL cs + 1) ih none 0 0 cs.toList

theorem scan_directory_char (cs : FSList) (ih : Bool) :
    (scan_directory (some cs) ih).items = buildChildren (scanEmitted ih cs) ∧
    (scan_directory (some cs) ih).processed = (scanEmitted ih cs).length ∧
    (scan_directory (some cs) ih).progressCalls =
      callsFrom (scanTotal ih cs) 0 (scanEmitted ih cs).length := by
  have h := scanList_char (FSList.heightL cs + 1) ih (scanTotal ih cs) none 0
    cs.toList initState
  simp only [scan_directory, scanEmitted]
  rw [h]
  simp [applyEmit, initState]

theorem emitFilesP_length (pid : Option ItemId) (lvl : Nat) :
    ∀ n fls, (emitFilesP pid lvl n fls).length = fls.length
  | _, [] => rfl
  | n, _ :: rest => by
    simp [emitFilesP, emitFilesP_length pid lvl (n + 1) rest]

theorem emitFilesP_nums (pid : Option ItemId) (lvl : Nat) :
    ∀ n fls, (emitFilesP pid lvl n fls).map (fun x => x.id.num) =
      List.range' n (emitFilesP pid lvl n fls).length
  | _, [] => rfl
  | n, f :: rest => by
    simp [emitFilesP, emitFilesP_length, mkFileItem, List.range'_succ,
      emitFilesP_nums pid lvl (n + 1) rest]

theorem emitFilesP_mem (pid : Option ItemId) (lvl : Nat) :
    ∀ n fls x, x ∈ emitFilesP pid lvl n fls →
      x.parent_id = pid ∧ x.is_dir = false ∧ x.level = lvl ∧
        ∃ f ∈ fls, x.name = f.name ∧ x.size_bytes = f.fileSize ∧
          x.extension = lowerStr (splitextExt f.name)
  | n, [], x => by simp [emitFilesP]
  | n, f :: rest, x => by
    intro hx
    rcases List.mem_cons.mp hx with h | h
    · subst h
      exact ⟨rfl, rfl, rfl, f, List.mem_cons_self f rest, rfl, rfl, rfl⟩
    · obtain ⟨h1, h2, h3, g, hg, h4⟩ := emitFilesP_mem pid lvl (n + 1) rest x h
      exact ⟨h1, h2, h3, g, List.mem_cons_of_mem f hg, h4⟩

theorem emitFilesP_names (pid : Option ItemId) (lvl : Nat) :
    ∀ n fls, (emitFilesP pid lvl n fls).map Item.name = fls.map FSEntry.name
  | _, [] => rfl
  | n, f :: rest => by
    simp [emitFilesP, mkFileItem, emitFilesP_names pid lvl (n + 1) rest]

/-- Bounds on a member's id number from the consecutive-numbering fact. -/
theorem mem_num_bounds {E : List Item} {a : Nat}
    (hnums : E.map (fun x => x.id.num) = List.range' a E.length)
    {x : Item} (hx : x ∈ E) : a ≤ x.id.num ∧ x.id.num < a + E.length := by
  have hm : x.id.num ∈ E.map (fun x => x.id.num) :=
    List.mem_map_of_mem _ hx
  rw [hnums] at hm
  exact List.mem_range'_1.mp hm


theorem range'_cons_append (n a b : Nat) :
    n :: (List.range' (n + 1) a ++ List.range' (n + 1 + a) b) =
      List.range' n (a + b + 1) := by
  rw [List.range'_append_1 (n + 1) a b, ← List.range'_succ n (b + a) 1]
  congr 1
  omega

theorem emitDirsP_nums (recur : Nat → FSList → List Item)
    (pid : Option ItemId) (lvl : Nat)
    (hrec : ∀ m cs, (recur m cs).map (fun x => x.id.num) =
      List.range' (m + 1) (recur m cs).length) :
    ∀ ds n, (emitDirsP recur pid lvl n ds).map (fun x => x.id.num) =
      List.range' n (emitDirsP recur pid lvl n ds).length
  | [], n => rfl
  | d :: rest, n => by
    have ihr := emitDirsP_nums recur pid lvl hrec rest
      (n + 1 + (recur n d.childrenL).length)
    simp only [emitDirsP, List.cons_append, List.map_cons, List.map_append,
      List.length_cons, List.length_append]
    rw [hrec n d.childrenL, ihr]
    have hn : (mkDirItem pid lvl n d.name
        (calculate_folder_size d.childrenL)).id.num = n := rfl
    rw [hn, range'_cons_append]

theorem emitL_nums :
    ∀ (fuel : Nat) (ih : Bool) (pid : Option ItemId) (lvl n : Nat)
      (es : List FSEntry),
      (emitL fuel ih pid lvl n es).map (fun x => x.id.num) =
        List.range' n (emitL fuel ih pid lvl n es).length
  | 0, _, _, _, _, _ => rfl
  | fuel + 1, ih, pid, lvl, n, es => by
    simp only [emitL, List.map_append, List.length_append]
    rw [emitDirsP_nums _ pid lvl
      (fun m cs => emitL_nums fuel ih (some ⟨true, m⟩) (lvl + 1) (m + 1)
        cs.toList)]
    rw [emitFilesP_nums, emitFilesP_length, List.range'_append_1]
    congr 1
    omega

/-- Every emitted node either sits at this call's level with this call's
parent id, or is a strictly deeper node whose parent is an emitted directory
node with an id number in `[n, x.id.num)`. -/
def ParentW (pid : Option ItemId) (lvl n : Nat) (E : List Item) : Prop :=
  ∀ x ∈ E, (x.parent_id = pid ∧ x.level = lvl) ∨
    (∃ y ∈ E, x.parent_id = some y.id ∧ y.is_dir = true ∧
      n ≤ y.id.num ∧ y.id.num < x.id.num ∧ lvl < x.level)

theorem parentW_mono {pid : Option ItemId} {lvl n : Nat} {E F : List Item}
    (hEF : ∀ y ∈ E, y ∈ F) (n' : Nat) (hn : n ≤ n')
    (h : ParentW pid lvl n' E) :
    ∀ x ∈ E, (x.parent_id = pid ∧ x.level = lvl) ∨
      (∃ y ∈ F, x.parent_id = some y.id ∧ y.is_dir = true ∧
        n ≤ y.id.num ∧ y.id.num < x.id.num ∧ lvl < x.level) := by
  intro x hx
  rcases h x hx with hl | ⟨y, hy, h1, h2, h3, h4, h5⟩
  · exact Or.inl hl
  · exact Or.inr ⟨y, hEF y hy, h1, h2, Nat.le_trans hn h3, h4, h5⟩

theorem emitDirsP_parentW (recur : Nat → FSList → List Item)
    (pid : Option ItemId) (lvl : Nat)
    (hnums : ∀ m cs, (recur m cs).map (fun x => x.id.num) =
      List.range' (m + 1) (recur m cs).length)
    (hpw : ∀ m cs, ParentW (some ⟨true, m⟩) (lvl + 1) (m + 1) (recur m cs)) :
    ∀ ds n, ParentW pid lvl n (emitDirsP recur pid lvl n ds)
  | [], n => by
    intro x hx
    simp [emitDirsP] at hx
  | d :: rest, n => by
    intro x hx
    simp only [emitDirsP, List.cons_append, List.mem_cons,
      List.mem_append] at hx
    rcases hx with hx | hx | hx
    · subst hx
      exact Or.inl ⟨rfl, rfl⟩
    · rcases hpw n d.childrenL x hx with ⟨h1, h2⟩ | ⟨y, hy, h1, h2, h3, h4, h5⟩
      · refine Or.inr ⟨mkDirItem pid lvl n d.name
          (calculate_folder_size d.childrenL), ?_, ?_, rfl, Nat.le_refl n, ?_, ?_⟩
        · simp [emitDirsP]
        · exact h1
        · exact (mem_num_bounds (hnums n d.childrenL) hx).1
        · omega
      · refine Or.inr ⟨y, ?_, h1, h2, by omega, h4, by omega⟩
        simp only [emitDirsP, List.cons_append, List.mem_cons, List.mem_append]
        exact Or.inr (Or.inl hy)
    · rcases emitDirsP_parentW recur pid lvl hnums hpw rest
          (n + 1 + (recur n d.childrenL).length) x hx with
        hl | ⟨y, hy, h1, h2, h3, h4, h5⟩
      · exact Or.inl hl
      · refine Or.inr ⟨y, ?_, h1, h2, by omega, h4, h5⟩
        simp only [emitDirsP, List.cons_append, List.mem_cons, List.mem_append]
        exact Or.inr (Or.inr hy)

theorem emitL_parentW :
    ∀ (fuel : Nat) (ih : Bool) (pid : Option ItemId) (lvl n : Nat)
      (es : List FSEntry), ParentW pid lvl n (emitL fuel ih pid lvl n es)
  | 0, _, _, _, _, _ => by
    intro x hx
    simp [emitL] at hx
  | fuel + 1, ih, pid, lvl, n, es => by
    intro x hx
    simp only [emitL, List.mem_append] at hx
    rcases hx with hx | hx
    · rcases emitDirsP_parentW _ pid lvl
          (fun m cs => emitL_nums fuel ih (some ⟨true, m⟩) (lvl + 1) (m + 1)
            cs.toList)
          (fun m cs => emitL_parentW fuel ih (some ⟨true, m⟩) (lvl + 1) (m + 1)
            cs.toList)
          _ n x hx with hl | ⟨y, hy, h1, h2, h3, h4, h5⟩
      · exact Or.inl hl
      · refine Or.inr ⟨y, ?_, h1, h2, h3, h4, h5⟩
        simp only [emitL, List.mem_append]
        exact Or.inl hy
    · exact Or.inl ⟨(emitFilesP_mem _ _ _ _ _ hx).1,
        (emitFilesP_mem _ _ _ _ _ hx).2.2.1⟩

/-! ## C1: node identity and parent/child linkage -/

theorem emitL_nums_nodup (fuel : Nat) (ih : Bool) (pid : Option ItemId)
    (lvl n : Nat) (es : List FSEntry) :
    ((emitL fuel ih pid lvl n es).map fun x => x.id.num).Nodup := by
  rw [emitL_nums]
  exact List.nodup_range' n _

/-- In a list with pairwise-distinct id numbers, filtering by a member's id
gives exactly that member. -/
theorem filter_id_eq_singleton {l : List Item}
    (hnd : (l.map fun x => x.id.num).Nodup) {x : Item} (hx : x ∈ l) :
    l.filter (fun j => j.id == x.id) = [x] := by
  induction l with
  | nil => cases hx
  | cons a as ihl =>
    rw [List.map_cons, List.nodup_cons] at hnd
    rcases List.mem_cons.mp hx with h | h
    · subst h
      have hnil : as.filter (fun j => j.id == x.id) = [] := by
        rw [List.filter_eq_nil_iff]
        intro j hj hbeq
        have heq : j.id = x.id := by simpa using hbeq
        apply hnd.1
        rw [← heq]
        exact List.mem_map_of_mem (fun x => x.id.num) hj
      simp [List.filter_cons, hnil]
    · have hne : (a.id == x.id) = false := by
        rw [beq_eq_false_iff_ne]
        intro heq
        apply hnd.1
        rw [heq]
        exact List.mem_map_of_mem (fun x => x.id.num) h
      simp [List.filter_cons, hne, ihl hnd.2 h]

/-- Counting an id among the ids of a node list. -/
theorem count_id_eq_length_filter (l : List Item) (a : ItemId) :
    (l.map fun c => c.id).count a = (l.filter fun c => c.id == a).length := by
  rw [List.count, List.countP_eq_length_filter, List.filter_map]
  simp [Function.comp_def]

/-- The scan of a root listing, described through the parent/child post-pass
applied to the emitted list. -/
theorem scanItems_eq (cs : FSList) (ih : Bool) :
    (scan_directory (some cs) ih).items =
      (scanEmitted ih cs).map fun it =>
        { it with children := childIdsIn (scanEmitted ih cs) it.id } :=
  (scan_directory_char cs ih).1

/-- C1 counterexample: scanning a root that directly contains the two files
`a` and `b` produces two nodes with `parent_id = null` (the root itself is
never emitted as a node), so it is false that exactly one node has a null
`parent_id`. -/
theorem c1_counterexample :
    ¬ (((scan_directory
        (some (FSList.cons (FSEntry.file "a" 1)
          (FSList.cons (FSEntry.file "b" 2) FSList.nil))) false).items.filter
        fun it => it.parent_id == (none : Option ItemId)).length = 1) := by
  decide

/-- C1 (amended): the scan root is not emitted as a node; the nodes with
`parent_id = null` are exactly the level-0 nodes (the root's immediate
included entries, of which there can be any number).  Every node with a
non-null `parent_id` references exactly one node of the result; that node is
a directory node and its `children` contains the child's id exactly once. -/
theorem c1_parent_links (root : Option FSList) (ih : Bool) :
    ∀ it ∈ (scan_directory root ih).items,
      (it.parent_id = none ↔ it.level = 0) ∧
      ∀ p, it.parent_id = some p →
        (((scan_directory root ih).items.filter fun j => j.id == p).length = 1
          ∧ ∀ par ∈ (scan_directory root ih).items, par.id = p →
              par.is_dir = true ∧ par.children.count it.id = 1) := by
  cases root with
  | none =>
    intro it hit
    simp [scan_directory, initState] at hit
  | some cs =>
    intro it hit
    rw [scanItems_eq] at hit
    obtain ⟨e, he, rfl⟩ := List.mem_map.mp hit
    have hnd : ((scanEmitted ih cs).map fun x => x.id.num).Nodup :=
      emitL_nums_nodup (FSList.heightL cs + 1) ih none 0 0 cs.toList
    have hpw : ParentW none 0 0 (scanEmitted ih cs) :=
      emitL_parentW (FSList.heightL cs + 1) ih none 0 0 cs.toList
    constructor
    · show e.parent_id = none ↔ e.level = 0
      rcases hpw e he with ⟨h1, h2⟩ | ⟨y, hy, h1, h2, h3, h4, h5⟩
      · exact ⟨fun _ => h2, fun _ => h1⟩
      · constructor
        · intro hnone
          rw [h1] at hnone
          cases hnone
        · intro hzero
          exact absurd hzero (by omega)
    · intro p hp
      replace hp : e.parent_id = some p := hp
      rcases hpw e he with ⟨h1, h2⟩ | ⟨y, hy, h1, h2, h3, h4, h5⟩
      · rw [h1] at hp
        cases hp
      · have hpy : p = y.id := by
          rw [h1] at hp
          exact (Option.some_inj.mp hp).symm
        subst hpy
        have hyfilter := filter_id_eq_singleton hnd hy
        constructor
        · rw [scanItems_eq, List.filter_map]
          have hcmp : ((fun j => j.id == y.id) ∘ fun it : Item =>
              { it with children := childIdsIn (scanEmitted ih cs) it.id }) =
              fun j : Item => j.id == y.id := rfl
          rw [hcmp, hyfilter]
          rfl
        · intro par hpar hparid
          rw [scanItems_eq] at hpar
          obtain ⟨f, hf, rfl⟩ := List.mem_map.mp hpar
          have hfid : f.id = y.id := hparid
          have hfy : f = y := by
            have hfmem : f ∈ (scanEmitted ih cs).filter
                (fun j => j.id == y.id) := by
              rw [List.mem_filter]
              exact ⟨hf, by rw [hfid]; exact beq_self_eq_true _⟩
            rw [hyfilter] at hfmem
            exact List.mem_singleton.mp hfmem
          subst hfy
          refine ⟨h2, ?_⟩
          show (childIdsIn (scanEmitted ih cs) f.id).count e.id = 1
          rw [childIdsIn, count_id_eq_length_filter, List.filter_filter]
          have hcomm : (fun c : Item =>
              (c.id == e.id) && (c.parent_id == some f.id)) =
              fun c : Item => (c.parent_id == some f.id) && (c.id == e.id) := by
            funext c
            exact Bool.and_comm _ _
          rw [hcomm, ← List.filter_filter, filter_id_eq_singleton hnd he]
          have hpe : (e.parent_id == some f.id) = true := by
            rw [beq_iff_eq, h1]
          simp [List.filter_cons, hpe]

/-! ## C2: the exclusion policy -/

/-- Origin of every node produced by the directory loop: it is either the
node of one of the listed directories, or comes from some directory's
recursive emission. -/
theorem emitDirsP_mem (recur : Nat → FSList → List Item)
    (pid : Option ItemId) (lvl : Nat) :
    ∀ ds n x, x ∈ emitDirsP recur pid lvl n ds →
      (∃ d ∈ ds, ∃ m, x = mkDirItem pid lvl m d.name
        (calculate_folder_size d.childrenL)) ∨
      (∃ d ∈ ds, ∃ m, x ∈ recur m d.childrenL)
  | [], n, x => by simp [emitDirsP]
  | d :: rest, n, x => by
    intro hx
    simp only [emitDirsP, List.cons_append, List.mem_cons,
      List.mem_append] at hx
    rcases hx with hx | hx | hx
    · exact Or.inl ⟨d, List.mem_cons_self d rest, n, hx⟩
    · exact Or.inr ⟨d, List.mem_cons_self d rest, n, hx⟩
    · rcases emitDirsP_mem recur pid lvl rest
          (n + 1 + (recur n d.childrenL).length) x hx with
        ⟨d', hd', m, hm⟩ | ⟨d', hd', m, hm⟩
      · exact Or.inl ⟨d', List.mem_cons_of_mem d hd', m, hm⟩
      · exact Or.inr ⟨d', List.mem_cons_of_mem d hd', m, hm⟩

/-- With `include_hidden = false` every emitted node's name passed the
`keepName` filter: no node's name starts with `.`, `~` or `$`. -/
theorem emitL_keepName :
    ∀ (fuel : Nat) (pid : Option ItemId) (lvl n : Nat) (es : List FSEntry),
      ∀ x ∈ emitL fuel false pid lvl n es, keepName x.name = true
  | 0, _, _, _, _ => by
    intro x hx
    simp [emitL] at hx
  | fuel + 1, pid, lvl, n, es => by
    intro x hx
    simp only [emitL, Bool.false_eq_true, if_false, List.mem_append] at hx
    rcases hx with hx | hx
    · rcases emitDirsP_mem _ pid lvl _ n x hx with
        ⟨d, hd, m, hm⟩ | ⟨d, hd, m, hm⟩
      · have hdes : d ∈ (es.filter fun e => keepName e.name) :=
          List.mem_of_mem_filter (mem_sortByNameCI.mp hd)
        subst hm
        exact (List.mem_filter.mp hdes).2
      · exact emitL_keepName fuel (some ⟨true, m⟩) (lvl + 1) (m + 1)
          d.childrenL.toList x hm
    · obtain ⟨_, _, _, f, hf, hnm, _⟩ := emitFilesP_mem pid lvl _ _ x hx
      have hfes : f ∈ (es.filter fun e => keepName e.name) :=
        List.mem_of_mem_filter (mem_sortByNameCI.mp hf)
      rw [hnm]
      exact (List.mem_filter.mp hfes).2

theorem height_le_heightL : ∀ (cs : FSList), ∀ e ∈ cs.toList,
    FSEntry.height e ≤ FSList.heightL cs
  | .nil, e, he => by cases he
  | .cons a r, e, he => by
    rcases List.mem_cons.mp he with h | h
    · subst h
      exact Nat.le_max_left _ _
    · exact Nat.le_trans (height_le_heightL r e h) (Nat.le_max_right _ _)

/-- The population-pass visit count, phrased over a plain entry list. -/
def countVisEs (ih : Bool) (es : List FSEntry) : Nat :=
  ((if ih then es else es.filter fun e => keepName e.name).map
    (FSEntry.countVis ih)).sum

theorem countVisL_eq_toList (ih : Bool) :
    ∀ cs : FSList, FSList.countVisL ih cs = countVisEs ih cs.toList
  | .nil => by cases ih <;> rfl
  | .cons e r => by
    have ihr := countVisL_eq_toList ih r
    cases ih with
    | true => simp [FSList.countVisL, countVisEs, FSList.toList, ihr]
    | false =>
      by_cases hk : keepName e.name = true
      · simp [FSList.countVisL, countVisEs, FSList.toList, hk, ihr]
      · have hk' : keepName e.name = false := by
          revert hk
          cases keepName e.name <;> simp
        simp [FSList.countVisL, countVisEs, FSList.toList, hk', ihr]

theorem sum_map_filter_split (f : FSEntry → Nat) (p : FSEntry → Bool) :
    ∀ l : List FSEntry,
      ((l.filter p).map f).sum + ((l.filter fun e => !p e).map f).sum =
        (l.map f).sum
  | [] => rfl
  | e :: r => by
    have ihr := sum_map_filter_split f p r
    by_cases hp : p e = true
    · simp [List.filter_cons, hp, ← ihr]
      omega
    · have hp' : p e = false := by
        revert hp
        cases p e <;> simp
      simp [List.filter_cons, hp', ← ihr]
      omega

theorem sum_map_sortByNameCI (f : FSEntry → Nat) (l : List FSEntry) :
    ((sortByNameCI l).map f).sum = (l.map f).sum :=
  ((sortByNameCI_perm l).map f).sum_eq

theorem countVis_file {ih : Bool} {e : FSEntry} (h : e.isDir = false) :
    FSEntry.countVis ih e = 1 := by
  cases e with
  | file _ _ => rfl
  | dir _ _ => cases h

theorem countVis_dir {ih : Bool} {e : FSEntry} (h : e.isDir = true) :
    FSEntry.countVis ih e = 1 + FSList.countVisL ih e.childrenL := by
  cases e with
  | file _ _ => cases h
  | dir _ _ => rfl

theorem emitDirsP_length (recur : Nat → FSList → List Item)
    (pid : Option ItemId) (lvl : Nat) (g : FSList → Nat) :
    ∀ ds n, (∀ d ∈ ds, ∀ m, (recur m d.childrenL).length = g d.childrenL) →
      (emitDirsP recur pid lvl n ds).length =
        (ds.map fun d => 1 + g d.childrenL).sum
  | [], n, _ => rfl
  | d :: rest, n, h => by
    have ihr := emitDirsP_length recur pid lvl g rest
      (n + 1 + g d.childrenL)
      (fun d' hd' => h d' (List.mem_cons_of_mem d hd'))
    simp only [emitDirsP, List.cons_append, List.length_cons,
      List.length_append, List.map_cons, List.sum_cons, ihr,
      h d (List.mem_cons_self d rest) n]
    omega

theorem length_eq_sum_map_of_one (f : FSEntry → Nat) :
    ∀ l : List FSEntry, (∀ x ∈ l, f x = 1) → l.length = (l.map f).sum
  | [], _ => rfl
  | a :: l, h => by
    simp only [List.length_cons, List.map_cons, List.sum_cons,
      h a (List.mem_cons_self a l),
      length_eq_sum_map_of_one f l fun x hx => h x (List.mem_cons_of_mem a hx)]
    omega

theorem sum_map_congr (f g : FSEntry → Nat) :
    ∀ l : List FSEntry, (∀ x ∈ l, f x = g x) → (l.map f).sum = (l.map g).sum
  | [], _ => rfl
  | a :: l, h => by
    simp only [List.map_cons, List.sum_cons, h a (List.mem_cons_self a l),
      sum_map_congr f g l fun x hx => h x (List.mem_cons_of_mem a hx)]

/-- With enough fuel, the number of emitted nodes is exactly the
population-pass visit count. -/
theorem emitL_length_eq :
    ∀ (fuel : Nat) (ih : Bool) (pid : Option ItemId) (lvl n : Nat)
      (es : List FSEntry), (∀ e ∈ es, FSEntry.height e < fuel) →
      (emitL fuel ih pid lvl n es).length = countVisEs ih es
  | 0, ih, _, _, _, es => by
    intro h
    cases es with
    | nil => cases ih <;> rfl
    | cons e r => exact absurd (h e (List.mem_cons_self e r)) (by omega)
  | fuel + 1, ih, pid, lvl, n, es => by
    intro h
    have hkept : ∀ e ∈ (if ih then es else es.filter fun e =>
        keepName e.name), e ∈ es := by
      intro e he
      cases ih with
      | true =>
        rw [if_pos rfl] at he
        exact he
      | false =>
        rw [if_neg (by simp : ¬ (false = true))] at he
        exact List.mem_of_mem_filter he
    have hds : ∀ d ∈ sortByNameCI ((if ih then es else es.filter fun e =>
        keepName e.name).filter fun e => e.isDir), ∀ m,
        (emitL fuel ih (some ⟨true, m⟩) (lvl + 1) (m + 1)
          d.childrenL.toList).length = countVisEs ih d.childrenL.toList := by
      intro d hd m
      have hdin : d ∈ es :=
        hkept d (List.mem_of_mem_filter (mem_sortByNameCI.mp hd))
      have hdir : d.isDir = true :=
        (List.mem_filter.mp (mem_sortByNameCI.mp hd)).2
      apply emitL_length_eq fuel ih (some ⟨true, m⟩) (lvl + 1) (m + 1)
      intro c hc
      have hc1 : FSEntry.height c ≤ FSList.heightL d.childrenL :=
        height_le_heightL d.childrenL c hc
      have hc2 : FSEntry.height d = FSList.heightL d.childrenL + 1 := by
        cases d with
        | file _ _ => cases hdir
        | dir _ _ => rfl
      have hc3 := h d hdin
      omega
    simp only [emitL, List.length_append]
    rw [emitDirsP_length _ pid lvl (fun cs => countVisEs ih cs.toList) _ n hds,
      emitFilesP_length]
    have hfls : ∀ f ∈ sortByNameCI ((if ih then es else es.filter fun e =>
        keepName e.name).filter fun e => !e.isDir), FSEntry.countVis ih f = 1 := by
      intro f hf
      have : f.isDir = false := by
        have := (List.mem_filter.mp (mem_sortByNameCI.mp hf)).2
        revert this
        cases f.isDir <;> simp
      exact countVis_file this
    rw [length_eq_sum_map_of_one (FSEntry.countVis ih) _ hfls]
    rw [sum_map_congr
      (fun d => 1 + countVisEs ih d.childrenL.toList) (FSEntry.countVis ih) _
      (by
        intro d hd
        have hdir : d.isDir = true :=
          (List.mem_filter.mp (mem_sortByNameCI.mp hd)).2
        rw [countVis_dir hdir, countVisL_eq_toList])]
    rw [sum_map_sortByNameCI, sum_map_sortByNameCI]
    exact sum_map_filter_split (FSEntry.countVis ih) (fun e => e.isDir) _

mutual
/-- With `include_hidden = true` the population pass visits every entry. -/
theorem countVis_true_eq : ∀ e : FSEntry,
    FSEntry.countVis true e = FSEntry.countAll e
  | .file _ _ => rfl
  | .dir _ cs => by
    rw [FSEntry.countVis, FSEntry.countAll, countVisL_true_eq cs]
/-- With `include_hidden = true` the population pass visits every entry of a
listing. -/
theorem countVisL_true_eq : ∀ cs : FSList,
    FSList.countVisL true cs = FSList.countAllL cs
  | .nil => rfl
  | .cons e r => by
    rw [FSList.countVisL, FSList.countAllL, countVis_true_eq e,
      countVisL_true_eq r]
    simp
end

/-- Every entry of a root listing has height below the scan's fuel bound. -/
theorem root_fuel_ok (cs : FSList) :
    ∀ e ∈ cs.toList, FSEntry.height e < FSList.heightL cs + 1 := by
  intro e he
  exact Nat.lt_succ_of_le (height_le_heightL cs e he)

/-- C2 counterexample: with `include_hidden = true` an entry named `~t` is
NOT excluded — it appears in the node list — so the claim that entries
starting with `~` or `$` are excluded regardless of the flag is false. -/
theorem c2_counterexample :
    ¬ (∀ it ∈ (scan_directory
        (some (FSList.cons (FSEntry.file "~t" 3) FSList.nil)) true).items,
        startsW it.name "~" = false) := by
  decide

/-- C2 (amended): when `include_hidden` is false, every entry whose name
starts with `.`, `~` or `$` is skipped entirely — no node carries such a
name and the node count is the `countVisL false` visit count, which descends
only into kept directories; when `include_hidden` is true nothing at all is
excluded: the node count equals the total number of entries in the tree
(`~`/`$` entries included). -/
theorem c2_exclusion_policy (cs : FSList) :
    (∀ it ∈ (scan_directory (some cs) false).items, keepName it.name = true) ∧
    (scan_directory (some cs) false).items.length =
      FSList.countVisL false cs ∧
    (scan_directory (some cs) true).items.length = FSList.countAllL cs := by
  refine ⟨?_, ?_, ?_⟩
  · intro it hit
    rw [scanItems_eq] at hit
    obtain ⟨e, he, rfl⟩ := List.mem_map.mp hit
    show keepName e.name = true
    exact emitL_keepName (FSList.heightL cs + 1) none 0 0 cs.toList e he
  · rw [scanItems_eq, List.length_map]
    rw [show scanEmitted false cs =
      emitL (FSList.heightL cs + 1) false none 0 0 cs.toList from rfl]
    rw [emitL_length_eq _ false none 0 0 cs.toList (root_fuel_ok cs)]
    exact (countVisL_eq_toList false cs).symm
  · rw [scanItems_eq, List.length_map]
    rw [show scanEmitted true cs =
      emitL (FSList.heightL cs + 1) true none 0 0 cs.toList from rfl]
    rw [emitL_length_eq _ true none 0 0 cs.toList (root_fuel_ok cs)]
    rw [← countVisL_eq_toList true cs]
    exact countVisL_true_eq cs

/-- Witness for `c2_exclusion_policy` on a root containing a hidden and a
visible file: the visible file's node passes `keepName`. -/
theorem c2_exclusion_policy_witness :
    (⟨⟨false, 0⟩, "v", 2, false, 0, none, [], ""⟩ : Item) ∈
      (scan_directory (some (FSList.cons (FSEntry.file ".h" 1)
        (FSList.cons (FSEntry.file "v" 2) FSList.nil))) false).items ∧
    keepName (⟨⟨false, 0⟩, "v", 2, false, 0, none, [], ""⟩ : Item).name =
      true :=
  ⟨by decide,
    (c2_exclusion_policy (FSList.cons (FSEntry.file ".h" 1)
      (FSList.cons (FSEntry.file "v" 2) FSList.nil))).1
      ⟨⟨false, 0⟩, "v", 2, false, 0, none, [], ""⟩ (by decide)⟩

/-- Witness for `c1_parent_links`: in a scan of a root containing directory
`d` with file `a`, the file node's parent reference resolves to exactly one
node whose `children` contains the file's id exactly once. -/
theorem c1_parent_links_witness :
    ((⟨⟨false, 1⟩, "a", 1, false, 1, some ⟨true, 0⟩, [], ""⟩ : Item) ∈
      (scan_directory (some (FSList.cons
        (FSEntry.dir "d" (FSList.cons (FSEntry.file "a" 1) FSList.nil))
        FSList.nil)) false).items) ∧
    ((scan_directory (some (FSList.cons
        (FSEntry.dir "d" (FSList.cons (FSEntry.file "a" 1) FSList.nil))
        FSList.nil)) false).items.filter
        fun j => j.id == (⟨true, 0⟩ : ItemId)).length = 1 :=
  ⟨by decide,
    ((c1_parent_links (some (FSList.cons
        (FSEntry.dir "d" (FSList.cons (FSEntry.file "a" 1) FSList.nil))
        FSList.nil)) false
      ⟨⟨false, 1⟩, "a", 1, false, 1, some ⟨true, 0⟩, [], ""⟩ (by decide)).2
      ⟨true, 0⟩ rfl).1⟩

/-! ## C3: directory sizes -/

/-- `dir nm cs'` occurs (at any depth) among the entries below the listing
`es`. -/
inductive SubdirIn : List FSEntry → String → FSList → Prop where
  | here {es : List FSEntry} {nm : String} {cs : FSList} :
      FSEntry.dir nm cs ∈ es → SubdirIn es nm cs
  | deeper {es : List FSEntry} {nm' : String} {cs' : FSList} {nm : String}
      {cs : FSList} : FSEntry.dir nm' cs' ∈ es →
      SubdirIn cs'.toList nm cs → SubdirIn es nm cs

theorem subdirIn_of_entry {es : List FSEntry} {d : FSEntry} (hd : d ∈ es)
    (hdir : d.isDir = true) : SubdirIn es d.name d.childrenL := by
  cases d with
  | file _ _ => cases hdir
  | dir nm cs => exact SubdirIn.here hd

/-- Every directory node of an emission carries the name of a directory
entry of the tree, and its recorded size is `calculate_folder_size` of that
directory's listing. -/
theorem emitL_dir_sizes :
    ∀ (fuel : Nat) (ih : Bool) (pid : Option ItemId) (lvl n : Nat)
      (es : List FSEntry), ∀ x ∈ emitL fuel ih pid lvl n es,
      x.is_dir = true →
      ∃ nm cs, SubdirIn es nm cs ∧ x.name = nm ∧
        x.size_bytes = calculate_folder_size cs
  | 0, _, _, _, _, _ => by
    intro x hx
    simp [emitL] at hx
  | fuel + 1, ih, pid, lvl, n, es => by
    intro x hx hdir
    have hkept : ∀ e ∈ (if ih then es else es.filter fun e =>
        keepName e.name), e ∈ es := by
      intro e he
      cases ih with
      | true =>
        rw [if_pos rfl] at he
        exact he
      | false =>
        rw [if_neg (by simp : ¬ (false = true))] at he
        exact List.mem_of_mem_filter he
    simp only [emitL, List.mem_append] at hx
    rcases hx with hx | hx
    · rcases emitDirsP_mem _ pid lvl _ n x hx with
        ⟨d, hd, m, hm⟩ | ⟨d, hd, m, hm⟩
      · have hdin : d ∈ es :=
          hkept d (List.mem_of_mem_filter (mem_sortByNameCI.mp hd))
        have hddir : d.isDir = true :=
          (List.mem_filter.mp (mem_sortByNameCI.mp hd)).2
        subst hm
        exact ⟨d.name, d.childrenL, subdirIn_of_entry hdin hddir, rfl, rfl⟩
      · have hdin : d ∈ es :=
          hkept d (List.mem_of_mem_filter (mem_sortByNameCI.mp hd))
        have hddir : d.isDir = true :=
          (List.mem_filter.mp (mem_sortByNameCI.mp hd)).2
        obtain ⟨nm, cs, hsub, hnm, hsz⟩ := emitL_dir_sizes fuel ih
          (some ⟨true, m⟩) (lvl + 1) (m + 1) d.childrenL.toList x hm hdir
        refine ⟨nm, cs, ?_, hnm, hsz⟩
        cases d with
        | file _ _ => cases hddir
        | dir nm' cs' => exact SubdirIn.deeper hdin hsub
    · obtain ⟨_, hfile, _⟩ := emitFilesP_mem pid lvl _ _ x hx
      rw [hdir] at hfile
      cases hfile

/-- The recursive sum of `size_bytes` over the file-type descendants of a
node, reached through `children` (`fuel` bounds the recursion depth; the
node count of the result suffices for any scan result). -/
def descFileSum (items : List Item) : Nat → ItemId → Nat
  | 0, _ => 0
  | fuel + 1, i =>
    match lookupItem items i with
    | none => 0
    | some it =>
      (it.children.map fun c =>
        match lookupItem items c with
        | some cit =>
          if cit.is_dir then descFileSum items fuel c else cit.size_bytes
        | none => 0).sum

/-- The root listing used by the C3 statements: a directory `d` holding a
single hidden file `.h` of 5 bytes. -/
def c3fs : FSList :=
  FSList.cons (FSEntry.dir "d" (FSList.cons (FSEntry.file ".h" 5) FSList.nil))
    FSList.nil

/-- C3 counterexample: scanning `c3fs` with `include_hidden = false` yields a
directory node of `size_bytes = 5` and no file nodes at all: the recursive
sum of file-type descendants through `child_ids` is 0, not 5, because
`calculate_folder_size` counts hidden files that the node list excludes. -/
theorem c3_counterexample :
    ¬ (∀ it ∈ (scan_directory (some c3fs) false).items, it.is_dir = true →
        it.size_bytes = descFileSum (scan_directory (some c3fs) false).items
          (scan_directory (some c3fs) false).items.length it.id) := by
  decide

/-- C3 (amended): every directory node's `size_bytes` is
`calculate_folder_size` of the directory it was created from — the recursive
sum of ALL descendant file sizes excluding exactly the `~`/`$`-prefixed
files, independent of `include_hidden`; it is not in general the sum of the
node's file-type descendants through `child_ids`, since hidden files are
included in the size even when their nodes are excluded from the result. -/
theorem c3_dir_sizes (cs : FSList) (ih : Bool) :
    ∀ it ∈ (scan_directory (some cs) ih).items, it.is_dir = true →
      ∃ nm cs', SubdirIn cs.toList nm cs' ∧ it.name = nm ∧
        it.size_bytes = calculate_folder_size cs' := by
  intro it hit hdir
  rw [scanItems_eq] at hit
  obtain ⟨e, he, rfl⟩ := List.mem_map.mp hit
  exact emitL_dir_sizes (FSList.heightL cs + 1) ih none 0 0 cs.toList e he
    hdir

/-- Witness for `c3_dir_sizes` on a root containing directory `d` with one
hidden 5-byte file: the directory's node records size 5, which is
`calculate_folder_size` of its listing. -/
theorem c3_dir_sizes_witness :
    ∃ nm cs', SubdirIn c3fs.toList nm cs' ∧
      (⟨⟨true, 0⟩, "d", 5, true, 0, none, [], ""⟩ : Item).name = nm ∧
      (⟨⟨true, 0⟩, "d", 5, true, 0, none, [], ""⟩ : Item).size_bytes =
        calculate_folder_size cs' :=
  c3_dir_sizes c3fs false
    ⟨⟨true, 0⟩, "d", 5, true, 0, none, [], ""⟩ (by decide) rfl

/-! ## C5: progress reporting -/

/-- Number of nodes emitted by a scan of `es` with the given fuel (the
population-pass visit count, fuel-bounded). -/
def emitLen : Nat → Bool → List FSEntry → Nat
  | 0, _, _ => 0
  | fuel + 1, ih, es =>
    let kept := if ih then es else es.filter fun e => keepName e.name
    ((sortByNameCI (kept.filter fun e => e.isDir)).map
      (fun d => 1 + emitLen fuel ih d.childrenL.toList)).sum +
      (sortByNameCI (kept.filter fun e => !e.isDir)).length

theorem emitL_length :
    ∀ (fuel : Nat) (ih : Bool) (pid : Option ItemId) (lvl n : Nat)
      (es : List FSEntry),
      (emitL fuel ih pid lvl n es).length = emitLen fuel ih es
  | 0, _, _, _, _, _ => rfl
  | fuel + 1, ih, pid, lvl, n, es => by
    simp only [emitL, emitLen, List.length_append]
    rw [emitDirsP_length _ pid lvl (fun cs => emitLen fuel ih cs.toList) _ n
        (fun d _ m => emitL_length fuel ih (some ⟨true, m⟩) (lvl + 1) (m + 1)
          d.childrenL.toList),
      emitFilesP_length]

theorem sum_map_one_add (f : FSEntry → Nat) :
    ∀ l : List FSEntry, (l.map fun d => 1 + f d).sum = l.length + (l.map f).sum
  | [] => rfl
  | a :: l => by
    simp only [List.map_cons, List.sum_cons, List.length_cons,
      sum_map_one_add f l]
    omega

theorem sum_map_le (f g : FSEntry → Nat) :
    ∀ l : List FSEntry, (∀ x ∈ l, f x ≤ g x) →
      (l.map f).sum ≤ (l.map g).sum
  | [], _ => Nat.le_refl 0
  | a :: l, h => by
    simp only [List.map_cons, List.sum_cons]
    exact Nat.add_le_add (h a (List.mem_cons_self a l))
      (sum_map_le f g l fun x hx => h x (List.mem_cons_of_mem a hx))

theorem sublist_sum_le {l1 l2 : List Nat} (h : l1.Sublist l2) :
    l1.sum ≤ l2.sum := by
  induction h with
  | slnil => exact Nat.le_refl 0
  | cons a _ ihs =>
    simp only [List.sum_cons]
    exact Nat.le_trans ihs (Nat.le_add_left _ _)
  | cons₂ a _ ihs =>
    simp only [List.sum_cons]
    exact Nat.add_le_add_left ihs a

/-- The population pass never processes more entries than the counting pass
counted: per directory it keeps a subset of the directories the counting
pass kept (the counting pass only prunes `.`-prefixed directories, the
population pass also prunes `~`/`$`-prefixed ones) and exactly the same
files. -/
theorem emitLen_le_walkCount :
    ∀ (fuel : Nat) (ih : Bool) (es : List FSEntry),
      emitLen fuel ih es ≤ walkCount fuel ih es
  | 0, _, _ => Nat.le_refl 0
  | fuel + 1, ih, es => by
    cases ih with
    | true =>
      simp only [emitLen, walkCount, eq_self_iff_true, if_true]
      rw [sum_map_sortByNameCI, (sortByNameCI_perm _).length_eq,
        sum_map_one_add]
      have hle := sum_map_le (fun d => emitLen fuel true d.childrenL.toList)
        (fun d => walkCount fuel true d.childrenL.toList)
        (es.filter fun e => e.isDir)
        (fun d _ => emitLen_le_walkCount fuel true d.childrenL.toList)
      omega
    | false =>
      simp only [emitLen, walkCount, if_neg (by simp : ¬ (false = true))]
      rw [sum_map_sortByNameCI, (sortByNameCI_perm _).length_eq,
        List.filter_filter, List.filter_filter]
      have hfeq :
          List.filter (fun a => !a.isDir && keepName a.name) es =
          (es.filter fun e => !e.isDir).filter fun e => keepName e.name := by
        rw [List.filter_filter]
        apply List.filter_congr
        intro e _
        exact Bool.and_comm _ _
      have hdeq :
          List.filter (fun a => a.isDir && keepName a.name) es =
          ((es.filter fun e => e.isDir).filter fun e =>
            !startsW e.name ".").filter fun e =>
              !startsW e.name "~" && !startsW e.name "$" := by
        rw [List.filter_filter, List.filter_filter]
        apply List.filter_congr
        intro e _
        simp only [keepName]
        cases e.isDir <;> cases startsW e.name "." <;>
          cases startsW e.name "~" <;> cases startsW e.name "$" <;> rfl
      rw [hdeq, hfeq]
      have hstep1 := sum_map_le
        (fun d => 1 + emitLen fuel false d.childrenL.toList)
        (fun d => 1 + walkCount fuel false d.childrenL.toList)
        (((es.filter fun e => e.isDir).filter fun e =>
          !startsW e.name ".").filter fun e =>
            !startsW e.name "~" && !startsW e.name "$")
        (fun d _ => Nat.add_le_add_left
          (emitLen_le_walkCount fuel false d.childrenL.toList) 1)
      have hsub : (((es.filter fun e => e.isDir).filter fun e =>
            !startsW e.name ".").filter fun e =>
              !startsW e.name "~" && !startsW e.name "$").Sublist
          ((es.filter fun e => e.isDir).filter fun e => !startsW e.name ".") :=
        List.filter_sublist _
      have hstep2 := sublist_sum_le (List.Sublist.map
        (fun d => 1 + walkCount fuel false d.childrenL.toList) hsub)
      simp only [sum_map_one_add] at hstep1 hstep2 ⊢
      omega

/-- The root listing used by the C5 counterexample: a single directory named
`~d`. -/
def c5fs : FSList := FSList.cons (FSEntry.dir "~d" FSList.nil) FSList.nil

/-- C5 counterexample: for a root containing only the directory `~d`, the
counting pass counts one item (it prunes only `.`-prefixed directories,
lines 93-97), while the population pass excludes `~d` and processes nothing,
so the two passes do not apply the same exclusion policy and the numerator
never reaches the denominator. -/
theorem c5_counterexample :
    scanTotal false c5fs = 1 ∧
    (scan_directory (some c5fs) false).progressCalls = [] ∧
    ¬ ((scan_directory (some c5fs) false).processed = scanTotal false c5fs) := by
  decide

/-- C5 (amended): on every callback the denominator is the same value
`scanTotal` computed by the first pass, and the numerator takes the
successive values `1, 2, …, processed`, never exceeding the denominator;
but the counting pass applies a weaker directory exclusion than the
population pass (it prunes only `.`-prefixed directories, not `~`/`$`-
prefixed ones), so the final numerator can remain strictly below the
denominator. -/
theorem c5_progress_calls (cs : FSList) (ih : Bool) :
    (scan_directory (some cs) ih).progressCalls.map Prod.snd =
      List.replicate (scan_directory (some cs) ih).processed
        (scanTotal ih cs) ∧
    (scan_directory (some cs) ih).progressCalls.map Prod.fst =
      List.range' 1 (scan_directory (some cs) ih).processed ∧
    (scan_directory (some cs) ih).processed ≤ scanTotal ih cs := by
  obtain ⟨-, hproc, hcalls⟩ := scan_directory_char cs ih
  refine ⟨?_, ?_, ?_⟩
  · rw [hcalls, hproc, callsFrom]
    rw [List.map_map]
    have : (Prod.snd ∘ fun p => ((p, scanTotal ih cs) : Nat × Nat)) =
        fun _ => scanTotal ih cs := rfl
    rw [this, List.map_const', List.length_range']
  · rw [hcalls, hproc, callsFrom, List.map_map]
    have : (Prod.fst ∘ fun p => ((p, scanTotal ih cs) : Nat × Nat)) =
        fun p => p := rfl
    rw [this]
    simp
  · rw [hproc]
    show (scanEmitted ih cs).length ≤ scanTotal ih cs
    rw [show scanEmitted ih cs =
      emitL (FSList.heightL cs + 1) ih none 0 0 cs.toList from rfl]
    rw [emitL_length]
    exact emitLen_le_walkCount (FSList.heightL cs + 1) ih cs.toList

/-! ## C7: emission order -/

theorem emitFilesP_flag (pid : Option ItemId) (lvl : Nat) :
    ∀ n fls, ∀ x ∈ emitFilesP pid lvl n fls,
      x.id.isDir = false ∧ x.is_dir = false
  | n, [], x => by simp [emitFilesP]
  | n, f :: rest, x => by
    intro hx
    rcases List.mem_cons.mp hx with h | h
    · subst h
      exact ⟨rfl, rfl⟩
    · exact emitFilesP_flag pid lvl (n + 1) rest x h

/-- Directory nodes carry `dir_` ids and file nodes `file_` ids. -/
theorem emitL_id_flag :
    ∀ (fuel : Nat) (ih : Bool) (pid : Option ItemId) (lvl n : Nat)
      (es : List FSEntry), ∀ x ∈ emitL fuel ih pid lvl n es,
      x.id.isDir = x.is_dir
  | 0, _, _, _, _, _ => by
    intro x hx
    simp [emitL] at hx
  | fuel + 1, ih, pid, lvl, n, es => by
    intro x hx
    simp only [emitL, List.mem_append] at hx
    rcases hx with hx | hx
    · rcases emitDirsP_mem _ pid lvl _ n x hx with
        ⟨d, _, m, hm⟩ | ⟨d, _, m, hm⟩
      · subst hm
        rfl
      · exact emitL_id_flag fuel ih (some ⟨true, m⟩) (lvl + 1) (m + 1)
          d.childrenL.toList x hm
    · obtain ⟨h1, h2⟩ := emitFilesP_flag pid lvl _ _ x hx
      rw [h1, h2]

/-- Stack discipline of the emission: between a directory node `k` and any
of the nodes that reference it as parent, every node's parent reference
also points at or after `k`. -/
def Closed (n : Nat) (E : List Item) : Prop :=
  ∀ x ∈ E, ∀ k, x.parent_id = some ⟨true, k⟩ → n ≤ k →
    ∀ z ∈ E, k < z.id.num → z.id.num < x.id.num →
      ∃ k', z.parent_id = some ⟨true, k'⟩ ∧ k ≤ k'

theorem itemId_eta_true {y : Item} (h1 : y.id.isDir = y.is_dir)
    (h2 : y.is_dir = true) : y.id = ⟨true, y.id.num⟩ :=
  calc y.id = ⟨y.id.isDir, y.id.num⟩ := rfl
    _ = ⟨true, y.id.num⟩ := by rw [h1, h2]

theorem emitDirsP_closed (recur : Nat → FSList → List Item)
    (pid : Option ItemId) (lvl : Nat)
    (hnums : ∀ m cs, (recur m cs).map (fun x => x.id.num) =
      List.range' (m + 1) (recur m cs).length)
    (hpw : ∀ m cs, ParentW (some ⟨true, m⟩) (lvl + 1) (m + 1) (recur m cs))
    (hflag : ∀ m cs, ∀ y ∈ recur m cs, y.id.isDir = y.is_dir)
    (hcl : ∀ m cs, Closed (m + 1) (recur m cs)) :
    ∀ ds n, (∀ q : ItemId, pid = some q → q.num < n) →
      Closed n (emitDirsP recur pid lvl n ds)
  | [], n, hsmall => by
    intro x hx
    simp [emitDirsP] at hx
  | d :: rest, n, hsmall => by
    intro x hx k hxp hk z hz hz1 hz2
    simp only [emitDirsP, List.cons_append, List.mem_cons,
      List.mem_append] at hx hz
    have hrestnums := emitDirsP_nums recur pid lvl hnums rest
      (n + 1 + (recur n d.childrenL).length)
    rcases hx with hx | hx | hx
    · subst hx
      have hpid : pid = some ⟨true, k⟩ := hxp
      have := hsmall _ hpid
      simp at this
      omega
    · have hxB := mem_num_bounds (hnums n d.childrenL) hx
      have hzsub : z ∈ recur n d.childrenL := by
        rcases hz with hz | hz | hz
        · subst hz
          exact absurd hz1 (by simp [mkDirItem]; omega)
        · exact hz
        · have := (mem_num_bounds hrestnums hz).1
          omega
      rcases hpw n d.childrenL x hx with ⟨hp, -⟩ | ⟨y, hy, hp1, hp2, hy3, hy4, -⟩
      · rw [hp] at hxp
        have hkn : n = k := by
          have := Option.some_inj.mp hxp
          exact congrArg ItemId.num this
        rcases hpw n d.childrenL z hzsub with ⟨hpz, -⟩ |
          ⟨w, hw, hw1, hw2, hw3, hw4, -⟩
        · exact ⟨n, hpz, by omega⟩
        · have hwid : w.id = ⟨true, w.id.num⟩ :=
            itemId_eta_true (hflag n d.childrenL w hw) hw2
          refine ⟨w.id.num, ?_, by omega⟩
          rw [hw1, hwid]
      · have hky : y.id = ⟨true, k⟩ := by
          rw [hp1] at hxp
          exact Option.some_inj.mp hxp
        have hkval : y.id.num = k := congrArg ItemId.num hky
        exact hcl n d.childrenL x hx k hxp (by omega) z hzsub hz1 hz2
    · have hxB := mem_num_bounds hrestnums hx
      rcases emitDirsP_parentW recur pid lvl hnums hpw rest
          (n + 1 + (recur n d.childrenL).length) x hx
        with ⟨hp, -⟩ | ⟨y, hy, hp1, hp2, hy3, hy4, -⟩
      · rw [hp] at hxp
        have := hsmall _ hxp
        simp at this
        omega
      · have hky : y.id = ⟨true, k⟩ := by
          rw [hp1] at hxp
          exact Option.some_inj.mp hxp
        have hkval : y.id.num = k := congrArg ItemId.num hky
        have hzrest : z ∈ emitDirsP recur pid lvl
            (n + 1 + (recur n d.childrenL).length) rest := by
          rcases hz with hz | hz | hz
          · subst hz
            simp [mkDirItem] at hz1
            omega
          · have := (mem_num_bounds (hnums n d.childrenL) hz).2
            omega
          · exact hz
        exact emitDirsP_closed recur pid lvl hnums hpw hflag hcl rest
          (n + 1 + (recur n d.childrenL).length)
          (fun q hq => by
            have := hsmall q hq
            omega) x hx k hxp (by omega) z hzrest hz1 hz2

theorem closed_append_files {DB FB : List Item} {pid : Option ItemId} {n : Nat}
    (hDB : Closed n DB)
    (hDBnums : DB.map (fun x => x.id.num) = List.range' n DB.length)
    (hFBnums : FB.map (fun x => x.id.num) =
      List.range' (n + DB.length) FB.length)
    (hFBpar : ∀ x ∈ FB, x.parent_id = pid)
    (hsmall : ∀ q : ItemId, pid = some q → q.num < n) :
    Closed n (DB ++ FB) := by
  intro x hx k hxp hk z hz hz1 hz2
  rw [List.mem_append] at hx hz
  rcases hx with hx | hx
  · have hxB := mem_num_bounds hDBnums hx
    have hzDB : z ∈ DB := by
      rcases hz with hz | hz
      · exact hz
      · have := (mem_num_bounds hFBnums hz).1
        omega
    exact hDB x hx k hxp hk z hzDB hz1 hz2
  · rw [hFBpar x hx] at hxp
    have := hsmall _ hxp
    simp at this
    omega

theorem emitL_closed :
    ∀ (fuel : Nat) (ih : Bool) (pid : Option ItemId) (lvl n : Nat)
      (es : List FSEntry),
      (∀ q : ItemId, pid = some q → q.num < n) →
      Closed n (emitL fuel ih pid lvl n es)
  | 0, _, _, _, _, _, _ => by
    intro x hx
    simp [emitL] at hx
  | fuel + 1, ih, pid, lvl, n, es, hsmall => by
    simp only [emitL]
    refine closed_append_files ?_ ?_ ?_ ?_ hsmall
    · exact emitDirsP_closed _ pid lvl
        (fun m cs => emitL_nums fuel ih (some ⟨true, m⟩) (lvl + 1) (m + 1)
          cs.toList)
        (fun m cs => emitL_parentW fuel ih (some ⟨true, m⟩) (lvl + 1) (m + 1)
          cs.toList)
        (fun m cs => emitL_id_flag fuel ih (some ⟨true, m⟩) (lvl + 1) (m + 1)
          cs.toList)
        (fun m cs => emitL_closed fuel ih (some ⟨true, m⟩) (lvl + 1) (m + 1)
          cs.toList (fun q hq => by
            have h := Option.some_inj.mp hq
            subst h
            exact Nat.lt_succ_self m))
        _ n hsmall
    · exact emitDirsP_nums _ pid lvl
        (fun m cs => emitL_nums fuel ih (some ⟨true, m⟩) (lvl + 1) (m + 1)
          cs.toList) _ n
    · exact emitFilesP_nums pid lvl _ _
    · exact fun x hx => (emitFilesP_mem pid lvl _ _ x hx).1

/-- Case-insensitive name order, as `key=lambda x: x.lower()` on names. -/
def nameLe (a b : String) : Prop := strLe (lowerStr a) (lowerStr b) = true

/-- The shape `process_directory` gives the children of one directory:
all directory nodes first, then all file nodes, each block sorted
case-insensitively by name (lines 113-120 and the emission order). -/
def ShapeOk (L : List Item) : Prop :=
  ∃ dcs fcs : List Item, L = dcs ++ fcs ∧
    (∀ y ∈ dcs, y.is_dir = true) ∧ (∀ y ∈ fcs, y.is_dir = false) ∧
    (dcs.map Item.name).Pairwise nameLe ∧ (fcs.map Item.name).Pairwise nameLe

theorem shapeOk_append {dcs fcs : List Item}
    (hd : ∀ y ∈ dcs, y.is_dir = true) (hf : ∀ y ∈ fcs, y.is_dir = false)
    (hds : (dcs.map Item.name).Pairwise nameLe)
    (hfs : (fcs.map Item.name).Pairwise nameLe) : ShapeOk (dcs ++ fcs) :=
  ⟨dcs, fcs, rfl, hd, hf, hds, hfs⟩

theorem pid_ne_of_small {pid : Option ItemId} {n : Nat}
    (hsmall : ∀ q : ItemId, pid = some q → q.num < n) {t : ItemId}
    (ht : n ≤ t.num) : pid ≠ some t := by
  intro h
  have := hsmall t h
  omega

theorem some_ne_of_num_ne {q t : ItemId} (h : q.num ≠ t.num) :
    (some q : Option ItemId) ≠ some t := by
  intro he
  exact h (congrArg ItemId.num (Option.some_inj.mp he))

theorem parent_beq_false_of_ne {x : Item} {o : Option ItemId} {t : ItemId}
    (hp : x.parent_id = o) (h : o ≠ some t) :
    (x.parent_id == some t) = false := by
  rw [hp]
  exact beq_eq_false_iff_ne.mpr h

theorem shapeOk_filter_append_right_nil {A B : List Item} {P : Item → Bool}
    (hB : ∀ b ∈ B, P b = false) (h : ShapeOk (A.filter P)) :
    ShapeOk ((A ++ B).filter P) := by
  have hBnil : B.filter P = [] :=
    List.filter_eq_nil_iff.mpr (by intro b hb; simp [hB b hb])
  rw [List.filter_append, hBnil, List.append_nil]
  exact h

theorem shapeOk_filter_cons_append {a : Item} {A B : List Item}
    {P : Item → Bool} (ha : P a = false) (hB : ∀ b ∈ B, P b = false)
    (h : ShapeOk (A.filter P)) : ShapeOk (((a :: A) ++ B).filter P) := by
  have hBnil : B.filter P = [] :=
    List.filter_eq_nil_iff.mpr (by intro b hb; simp [hB b hb])
  rw [List.cons_append, List.filter_cons, if_neg (by simp [ha]),
    List.filter_append, hBnil, List.append_nil]
  exact h

theorem shapeOk_filter_cons_append_left {a : Item} {A B : List Item}
    {P : Item → Bool} (ha : P a = false) (hA : ∀ b ∈ A, P b = false)
    (h : ShapeOk (B.filter P)) : ShapeOk (((a :: A) ++ B).filter P) := by
  rw [List.cons_append, List.filter_cons, if_neg (by simp [ha]),
    List.filter_append,
    List.filter_eq_nil_iff.mpr (by intro b hb; simp [hA b hb]),
    List.nil_append]
  exact h


/-- Among the nodes emitted by the directory loop, those whose `parent_id`
is the enclosing directory's id are exactly the per-directory folder nodes,
in listing order: subtree nodes all point at ids at or above the subtree
root's id. -/
theorem emitDirsP_filter_pid (recur : Nat → FSList → List Item)
    (pid : Option ItemId) (lvl : Nat)
    (hnums : ∀ m cs, (recur m cs).map (fun x => x.id.num) =
      List.range' (m + 1) (recur m cs).length)
    (hpw : ∀ m cs, ParentW (some ⟨true, m⟩) (lvl + 1) (m + 1) (recur m cs)) :
    ∀ ds n, (∀ q : ItemId, pid = some q → q.num < n) →
      ((emitDirsP recur pid lvl n ds).filter
          (fun j => j.parent_id == pid)).map Item.name =
        ds.map FSEntry.name ∧
      ∀ y ∈ (emitDirsP recur pid lvl n ds).filter
          (fun j => j.parent_id == pid), y.is_dir = true
  | [], n, _ => by simp [emitDirsP]
  | d :: rest, n, hsmall => by
    have ihr := emitDirsP_filter_pid recur pid lvl hnums hpw rest
      (n + 1 + (recur n d.childrenL).length)
      (fun q hq => by
        have := hsmall q hq
        omega)
    have hsubnil : (recur n d.childrenL).filter
        (fun j => j.parent_id == pid) = [] := by
      apply List.filter_eq_nil_iff.mpr
      intro w hw
      have hne : (w.parent_id == pid) = false := by
        rcases hpw n d.childrenL w hw with ⟨hp, -⟩ |
          ⟨y, hy, hp1, hp2, hy3, hy4, -⟩
        · rw [hp]
          apply beq_eq_false_iff_ne.mpr
          intro he
          have := hsmall _ he.symm
          simp at this
        · rw [hp1]
          apply beq_eq_false_iff_ne.mpr
          intro he
          have := hsmall y.id he.symm
          omega
      simp [hne]
    have hdtrue : ((mkDirItem pid lvl n d.name
        (calculate_folder_size d.childrenL)).parent_id == pid) = true := by
      exact beq_self_eq_true pid
    simp only [emitDirsP, List.cons_append, List.filter_append,
      List.filter_cons, hdtrue, if_true, hsubnil, List.map_cons,
      List.nil_append, List.map_nil, List.append_nil]
    refine ⟨?_, ?_⟩
    · rw [ihr.1]
      rfl
    · intro y hy
      rcases List.mem_cons.mp hy with h | h
      · subst h
        rfl
      · exact ihr.2 y h

theorem emitFilesP_filter_pid (pid : Option ItemId) (lvl : Nat)
    (n : Nat) (fls : List FSEntry) :
    (emitFilesP pid lvl n fls).filter (fun j => j.parent_id == pid) =
      emitFilesP pid lvl n fls := by
  apply List.filter_eq_self.mpr
  intro y hy
  rw [(emitFilesP_mem pid lvl n fls y hy).1]
  exact beq_self_eq_true pid

/-- The children of the enclosing directory among the emitted nodes are the
sorted folder nodes followed by the sorted file nodes. -/
theorem emitL_shape_top :
    ∀ (fuel : Nat) (ih : Bool) (pid : Option ItemId) (lvl n : Nat)
      (es : List FSEntry), (∀ q : ItemId, pid = some q → q.num < n) →
      ShapeOk ((emitL fuel ih pid lvl n es).filter
        (fun j => j.parent_id == pid))
  | 0, ih, pid, lvl, n, es, _ => by
    refine ⟨[], [], ?_, ?_, ?_, ?_, ?_⟩ <;> simp [emitL]
  | fuel + 1, ih, pid, lvl, n, es, hsmall => by
    simp only [emitL, List.filter_append]
    apply shapeOk_append
    · exact (emitDirsP_filter_pid _ pid lvl
        (fun m cs => emitL_nums fuel ih (some ⟨true, m⟩) (lvl + 1) (m + 1)
          cs.toList)
        (fun m cs => emitL_parentW fuel ih (some ⟨true, m⟩) (lvl + 1) (m + 1)
          cs.toList) _ n hsmall).2
    · intro y hy
      exact (emitFilesP_mem pid lvl _ _ y (List.mem_of_mem_filter hy)).2.1
    · rw [(emitDirsP_filter_pid _ pid lvl
        (fun m cs => emitL_nums fuel ih (some ⟨true, m⟩) (lvl + 1) (m + 1)
          cs.toList)
        (fun m cs => emitL_parentW fuel ih (some ⟨true, m⟩) (lvl + 1) (m + 1)
          cs.toList) _ n hsmall).1, List.pairwise_map]
      exact (sortByNameCI_sorted _).imp (fun h => h)
    · rw [emitFilesP_filter_pid, emitFilesP_names, List.pairwise_map]
      exact (sortByNameCI_sorted _).imp (fun h => h)

/-- Inside the directory loop's emission, the children of any folder node
have the dirs-then-files sorted shape, assuming the recursive emissions do. -/
theorem emitDirsP_shape_inner (recur : Nat → FSList → List Item)
    (pid : Option ItemId) (lvl : Nat)
    (hnums : ∀ m cs, (recur m cs).map (fun x => x.id.num) =
      List.range' (m + 1) (recur m cs).length)
    (hpw : ∀ m cs, ParentW (some ⟨true, m⟩) (lvl + 1) (m + 1) (recur m cs))
    (hsh : ∀ m cs, ∀ y ∈ recur m cs, y.is_dir = true →
      ShapeOk ((recur m cs).filter (fun j => j.parent_id == some y.id)))
    (htop : ∀ m cs, ShapeOk ((recur m cs).filter
      (fun j => j.parent_id == some (⟨true, m⟩ : ItemId)))) :
    ∀ ds n, (∀ q : ItemId, pid = some q → q.num < n) →
      ∀ y ∈ emitDirsP recur pid lvl n ds, y.is_dir = true →
        ShapeOk ((emitDirsP recur pid lvl n ds).filter
          (fun j => j.parent_id == some y.id))
  | [], n, _, y, hy => by
    intro _
    simp [emitDirsP] at hy
  | d :: rest, n, hsmall, y, hy => by
    intro hydir
    simp only [emitDirsP, List.cons_append, List.mem_cons,
      List.mem_append] at hy
    simp only [emitDirsP]
    have hrestnums := emitDirsP_nums recur pid lvl hnums rest
      (n + 1 + (recur n d.childrenL).length)
    have hdn : (mkDirItem pid lvl n d.name
        (calculate_folder_size d.childrenL)).id.num = n := rfl
    rcases hy with hy | hy | hy
    · subst hy
      refine shapeOk_filter_cons_append ?_ ?_ ?_
      · exact parent_beq_false_of_ne rfl (pid_ne_of_small hsmall (le_refl n))
      · intro b hb
        rcases emitDirsP_parentW recur pid lvl hnums hpw rest
            (n + 1 + (recur n d.childrenL).length) b hb with ⟨hp, -⟩ |
          ⟨w, hw, hp1, hp2, hw3, hw4, -⟩
        · exact parent_beq_false_of_ne hp
            (pid_ne_of_small hsmall (le_refl n))
        · refine parent_beq_false_of_ne hp1 (some_ne_of_num_ne ?_)
          rw [hdn]
          omega
      · exact htop n d.childrenL
    · have hyB := mem_num_bounds (hnums n d.childrenL) hy
      refine shapeOk_filter_cons_append ?_ ?_ ?_
      · exact parent_beq_false_of_ne rfl (pid_ne_of_small hsmall (by omega))
      · intro b hb
        rcases emitDirsP_parentW recur pid lvl hnums hpw rest
            (n + 1 + (recur n d.childrenL).length) b hb with ⟨hp, -⟩ |
          ⟨w, hw, hp1, hp2, hw3, hw4, -⟩
        · exact parent_beq_false_of_ne hp
            (pid_ne_of_small hsmall (by omega))
        · exact parent_beq_false_of_ne hp1 (some_ne_of_num_ne (by omega))
      · exact hsh n d.childrenL y hy hydir
    · have hyB := mem_num_bounds hrestnums hy
      refine shapeOk_filter_cons_append_left ?_ ?_ ?_
      · exact parent_beq_false_of_ne rfl (pid_ne_of_small hsmall (by omega))
      · intro b hb
        rcases hpw n d.childrenL b hb with ⟨hp, -⟩ |
          ⟨w, hw, hp1, hp2, hw3, hw4, -⟩
        · refine parent_beq_false_of_ne hp (some_ne_of_num_ne ?_)
          show n ≠ y.id.num
          omega
        · have hwB := mem_num_bounds (hnums n d.childrenL) hw
          exact parent_beq_false_of_ne hp1 (some_ne_of_num_ne (by omega))
      · exact emitDirsP_shape_inner recur pid lvl hnums hpw hsh htop rest
          (n + 1 + (recur n d.childrenL).length)
          (fun q hq => by
            have := hsmall q hq
            omega) y hy hydir

/-- Every folder node in the emitted list has dirs-then-files, per-block
sorted children among the emitted nodes. -/
theorem emitL_shape_inner :
    ∀ (fuel : Nat) (ih : Bool) (pid : Option ItemId) (lvl n : Nat)
      (es : List FSEntry), (∀ q : ItemId, pid = some q → q.num < n) →
      ∀ y ∈ emitL fuel ih pid lvl n es, y.is_dir = true →
        ShapeOk ((emitL fuel ih pid lvl n es).filter
          (fun j => j.parent_id == some y.id))
  | 0, ih, pid, lvl, n, es, _, y, hy => by
    intro _
    simp [emitL] at hy
  | fuel + 1, ih, pid, lvl, n, es, hsmall, y, hy => by
    intro hydir
    simp only [emitL, List.mem_append] at hy
    rcases hy with hy | hy
    · have hyB := (mem_num_bounds (emitDirsP_nums _ pid lvl
        (fun m cs => emitL_nums fuel ih (some ⟨true, m⟩) (lvl + 1) (m + 1)
          cs.toList) _ n) hy).1
      simp only [emitL]
      refine shapeOk_filter_append_right_nil ?_ ?_
      · intro b hb
        exact parent_beq_false_of_ne (emitFilesP_mem pid lvl _ _ b hb).1
          (pid_ne_of_small hsmall hyB)
      · exact emitDirsP_shape_inner _ pid lvl
          (fun m cs => emitL_nums fuel ih (some ⟨true, m⟩) (lvl + 1) (m + 1)
            cs.toList)
          (fun m cs => emitL_parentW fuel ih (some ⟨true, m⟩) (lvl + 1)
            (m + 1) cs.toList)
          (fun m cs => emitL_shape_inner fuel ih (some ⟨true, m⟩) (lvl + 1)
            (m + 1) cs.toList (fun q hq => by
              have h := Option.some_inj.mp hq
              subst h
              exact Nat.lt_succ_self m))
          (fun m cs => emitL_shape_top fuel ih (some ⟨true, m⟩) (lvl + 1)
            (m + 1) cs.toList (fun q hq => by
              have h := Option.some_inj.mp hq
              subst h
              exact Nat.lt_succ_self m))
          _ n hsmall y hy hydir
    · have hfalse := (emitFilesP_mem pid lvl _ _ y hy).2.1
      rw [hydir] at hfalse
      simp at hfalse

theorem shapeOk_map {F : List Item} {g : Item → Item}
    (hname : ∀ e, (g e).name = e.name) (hdir : ∀ e, (g e).is_dir = e.is_dir)
    (h : ShapeOk F) : ShapeOk (F.map g) := by
  obtain ⟨dcs, fcs, heq, hd, hf, hds, hfs⟩ := h
  subst heq
  rw [List.map_append]
  have hcomp : (Item.name ∘ g) = Item.name := funext hname
  refine ⟨dcs.map g, fcs.map g, rfl, ?_, ?_, ?_, ?_⟩
  · intro y hy
    obtain ⟨e, he, rfl⟩ := List.mem_map.mp hy
    rw [hdir]
    exact hd e he
  · intro y hy
    obtain ⟨e, he, rfl⟩ := List.mem_map.mp hy
    rw [hdir]
    exact hf e he
  · rw [List.map_map, hcomp]
    exact hds
  · rw [List.map_map, hcomp]
    exact hfs

/-- Consecutive numbering of the final node list: each node's id number is
its position in the emitted order. -/
theorem scanItems_nums (ih : Bool) (cs : FSList) :
    ((scan_directory (some cs) ih).items.map fun x => x.id.num) =
      List.range' 0 (scan_directory (some cs) ih).items.length := by
  rw [scanItems_eq, List.map_map, List.length_map]
  have h : ((fun x : Item => x.id.num) ∘ fun it : Item =>
      { it with children := childIdsIn (scanEmitted ih cs) it.id }) =
      fun x : Item => x.id.num := rfl
  rw [h]
  exact emitL_nums (FSList.heightL cs + 1) ih none 0 0 cs.toList

/-- Distinct nodes of the result have distinct id numbers. -/
theorem scanItems_inj (ih : Bool) (cs : FSList) :
    ∀ x ∈ (scan_directory (some cs) ih).items,
      ∀ y ∈ (scan_directory (some cs) ih).items,
        x.id.num = y.id.num → x = y := by
  have hnd : (((scan_directory (some cs) ih).items).map
      fun x => x.id.num).Nodup := by
    rw [scanItems_nums]
    exact List.nodup_range' 0 _
  exact fun x hx y hy h => List.inj_on_of_nodup_map hnd hx hy h

/-- Every non-null `parent_id` of the result points at a directory node of
the result with a strictly smaller id number. -/
theorem scanItems_parent_witness (ih : Bool) (cs : FSList) :
    ∀ x ∈ (scan_directory (some cs) ih).items, ∀ q : ItemId,
      x.parent_id = some q →
      ∃ p ∈ (scan_directory (some cs) ih).items,
        p.id = q ∧ p.is_dir = true ∧ q.num < x.id.num := by
  intro x hx q hq
  rw [scanItems_eq] at hx
  obtain ⟨e, he, rfl⟩ := List.mem_map.mp hx
  replace hq : e.parent_id = some q := hq
  rcases emitL_parentW (FSList.heightL cs + 1) ih none 0 0 cs.toList e he with
    ⟨h1, -⟩ | ⟨y, hy, h1, h2, h3, h4, -⟩
  · rw [h1] at hq
    cases hq
  · have hqy : q = y.id := by
      rw [h1] at hq
      exact (Option.some_inj.mp hq).symm
    subst hqy
    refine ⟨{ y with children := childIdsIn (scanEmitted ih cs) y.id }, ?_,
      rfl, h2, h4⟩
    rw [scanItems_eq]
    exact List.mem_map_of_mem _ hy

/-- Stack discipline of the final node list. -/
theorem scanItems_closed (ih : Bool) (cs : FSList) :
    Closed 0 (scan_directory (some cs) ih).items := by
  intro x hx k hxp hk z hz hz1 hz2
  rw [scanItems_eq] at hx hz
  obtain ⟨e, he, rfl⟩ := List.mem_map.mp hx
  obtain ⟨e', he', rfl⟩ := List.mem_map.mp hz
  have hcl := emitL_closed (FSList.heightL cs + 1) ih none 0 0 cs.toList
    (fun q hq => nomatch hq)
  obtain ⟨k', hk', hkk⟩ := hcl e he k hxp hk e' he' hz1 hz2
  exact ⟨k', hk', hkk⟩

/-- `dir_`/`file_` id prefixes match the node kind in the final list. -/
theorem scanItems_flag (ih : Bool) (cs : FSList) :
    ∀ x ∈ (scan_directory (some cs) ih).items, x.id.isDir = x.is_dir := by
  intro x hx
  rw [scanItems_eq] at hx
  obtain ⟨e, he, rfl⟩ := List.mem_map.mp hx
  exact emitL_id_flag (FSList.heightL cs + 1) ih none 0 0 cs.toList e he

/-- The post-pass children law: each node's `children` are exactly the ids
of the result nodes whose `parent_id` is its id, in emitted order. -/
theorem scanItems_children (ih : Bool) (cs : FSList) :
    ∀ p ∈ (scan_directory (some cs) ih).items,
      p.children = ((scan_directory (some cs) ih).items.filter
        fun c => c.parent_id == some p.id).map fun c => c.id := by
  intro p hp
  rw [scanItems_eq] at hp
  obtain ⟨e, he, rfl⟩ := List.mem_map.mp hp
  rw [scanItems_eq, List.filter_map, List.map_map]
  rfl

/-- The level-0 block of the result (children of the unemitted root) has the
dirs-then-files, per-block sorted shape. -/
theorem scanItems_shape_top (ih : Bool) (cs : FSList) :
    ShapeOk ((scan_directory (some cs) ih).items.filter
      fun c => c.parent_id == (none : Option ItemId)) := by
  rw [scanItems_eq, List.filter_map]
  have h : ((fun c : Item => c.parent_id == (none : Option ItemId)) ∘
      fun it : Item =>
        { it with children := childIdsIn (scanEmitted ih cs) it.id }) =
      fun c : Item => c.parent_id == (none : Option ItemId) := rfl
  rw [h]
  exact shapeOk_map (fun e => rfl) (fun e => rfl)
    (emitL_shape_top (FSList.heightL cs + 1) ih none 0 0 cs.toList
      (fun q hq => nomatch hq))

/-- Each directory node's children block in the result has the
dirs-then-files, per-block sorted shape. -/
theorem scanItems_shape_inner (ih : Bool) (cs : FSList) :
    ∀ p ∈ (scan_directory (some cs) ih).items, p.is_dir = true →
      ShapeOk ((scan_directory (some cs) ih).items.filter
        fun c => c.parent_id == some p.id) := by
  intro p hp hpdir
  rw [scanItems_eq] at hp
  obtain ⟨e, he, rfl⟩ := List.mem_map.mp hp
  rw [scanItems_eq, List.filter_map]
  have h : ((fun c : Item => c.parent_id == some ({ e with
      children := childIdsIn (scanEmitted ih cs) e.id } : Item).id) ∘
      fun it : Item =>
        { it with children := childIdsIn (scanEmitted ih cs) it.id }) =
      fun c : Item => c.parent_id == some e.id := rfl
  rw [h]
  exact shapeOk_map (fun x => rfl) (fun x => rfl)
    (emitL_shape_inner (FSList.heightL cs + 1) ih none 0 0 cs.toList
      (fun q hq => nomatch hq) e he hpdir)

/-- `x` lies in the subtree of `p` within the node list `items`: it is
reachable from `p` by following `parent_id` links downwards. -/
inductive IsDesc (items : List Item) : Item → Item → Prop
  | direct {p x : Item} : x ∈ items → x.parent_id = some p.id →
      IsDesc items p x
  | step {p y x : Item} : IsDesc items p y → x ∈ items →
      x.parent_id = some y.id → IsDesc items p x

theorem isDesc_mem {items : List Item} {p x : Item} (h : IsDesc items p x) :
    x ∈ items := by
  cases h with
  | direct hx _ => exact hx
  | step _ hx _ => exact hx

/-- Pre-order: every node of a directory's subtree has a larger id number
(hence a later position) than the directory node itself. -/
theorem scanItems_desc_lt (ih : Bool) (cs : FSList) :
    ∀ p x, IsDesc (scan_directory (some cs) ih).items p x →
      p.id.num < x.id.num := by
  intro p x h
  induction h with
  | direct hx hp =>
    obtain ⟨w, hw, h1, h2, hlt⟩ := scanItems_parent_witness ih cs _ hx _ hp
    exact hlt
  | step hd hx hp ihs =>
    obtain ⟨w, hw, h1, h2, hlt⟩ := scanItems_parent_witness ih cs _ hx _ hp
    omega

/-- Within one directory's children, every directory child precedes — with
its entire subtree — every file child of the same directory. -/
theorem scanItems_subtrees_before_files (ih : Bool) (cs : FSList) :
    ∀ o : Option ItemId,
      ∀ c ∈ (scan_directory (some cs) ih).items,
      ∀ f ∈ (scan_directory (some cs) ih).items,
        c.parent_id = o → f.parent_id = o →
        c.is_dir = true → f.is_dir = false →
        c.id.num < f.id.num ∧
        ∀ x, IsDesc (scan_directory (some cs) ih).items c x →
          x.id.num < f.id.num := by
  intro o c hc f hf hco hfo hcdir hfdir
  have hshape : ShapeOk ((scan_directory (some cs) ih).items.filter
      fun j => j.parent_id == o) := by
    cases o with
    | none => exact scanItems_shape_top ih cs
    | some q =>
      obtain ⟨p, hp, hpid, hpdir, -⟩ :=
        scanItems_parent_witness ih cs c hc q hco
      have h := scanItems_shape_inner ih cs p hp hpdir
      rw [hpid] at h
      exact h
  have hpl : ((scan_directory (some cs) ih).items).Pairwise
      (fun a b => a.id.num < b.id.num) := by
    have h2 : (((scan_directory (some cs) ih).items).map
        fun x => x.id.num).Pairwise (· < ·) := by
      rw [scanItems_nums ih cs]
      exact List.pairwise_lt_range' 0 _
    exact List.pairwise_map.mp h2
  obtain ⟨dcs, fcs, heq, hd, hfcs, -, -⟩ := hshape
  have hcmem : c ∈ dcs := by
    have hcf : c ∈ (scan_directory (some cs) ih).items.filter
        (fun j => j.parent_id == o) :=
      List.mem_filter.mpr ⟨hc, by rw [hco]; exact beq_self_eq_true o⟩
    rw [heq] at hcf
    rcases List.mem_append.mp hcf with h | h
    · exact h
    · have hbad := hfcs c h
      rw [hcdir] at hbad
      simp at hbad
  have hfmem : f ∈ fcs := by
    have hff : f ∈ (scan_directory (some cs) ih).items.filter
        (fun j => j.parent_id == o) :=
      List.mem_filter.mpr ⟨hf, by rw [hfo]; exact beq_self_eq_true o⟩
    rw [heq] at hff
    rcases List.mem_append.mp hff with h | h
    · have hbad := hd f h
      rw [hfdir] at hbad
      simp at hbad
    · exact h
  have hlt : c.id.num < f.id.num := by
    have hPF := hpl.filter (fun j => j.parent_id == o)
    rw [heq] at hPF
    exact (List.pairwise_append.mp hPF).2.2 c hcmem f hfmem
  refine ⟨hlt, ?_⟩
  intro x hx
  induction hx with
  | @direct x' hxm hxp =>
    rcases Nat.lt_or_ge x'.id.num f.id.num with h | h
    · exact h
    · exfalso
      have hxf : x' ≠ f := by
        intro he
        subst he
        rw [hfo] at hxp
        rw [hxp] at hco
        obtain ⟨w, hw, h1, h2, hlt2⟩ :=
          scanItems_parent_witness ih cs c hc c.id hco
        omega
      have hxgt : f.id.num < x'.id.num := by
        rcases Nat.eq_or_lt_of_le h with he | hlt2
        · exact absurd (scanItems_inj ih cs x' hxm f hf he.symm) hxf
        · exact hlt2
      have hcid : c.id = ⟨true, c.id.num⟩ :=
        itemId_eta_true (scanItems_flag ih cs c hc) hcdir
      have hxp2 : x'.parent_id = some ⟨true, c.id.num⟩ := by
        rw [hxp]
        exact congrArg some hcid
      obtain ⟨k', hk', hkk⟩ := scanItems_closed ih cs x' hxm c.id.num hxp2
        (Nat.zero_le _) f hf hlt hxgt
      rw [hfo] at hk'
      cases o with
      | none => cases hk'
      | some q =>
        obtain ⟨w, hw, h1, h2, hlt2⟩ :=
          scanItems_parent_witness ih cs c hc q hco
        have hqk : q.num = k' := congrArg ItemId.num (Option.some_inj.mp hk')
        omega
  | @step y' x' hdsc hxm hxp ihs =>
    have hym := isDesc_mem hdsc
    obtain ⟨w, hw, hwid, hwdir, -⟩ :=
      scanItems_parent_witness ih cs x' hxm _ hxp
    have hwy : w = y' := scanItems_inj ih cs w hw y' hym
      (congrArg ItemId.num hwid)
    have hydir : y'.is_dir = true := hwy ▸ hwdir
    rcases Nat.lt_or_ge x'.id.num f.id.num with h | h
    · exact h
    · exfalso
      have hxf : x' ≠ f := by
        intro he
        subst he
        rw [hfo] at hxp
        rw [hxp] at hco
        obtain ⟨w2, hw2, h1, h2, hlt2⟩ :=
          scanItems_parent_witness ih cs c hc _ hco
        have hcy := scanItems_desc_lt ih cs c y' hdsc
        omega
      have hxgt : f.id.num < x'.id.num := by
        rcases Nat.eq_or_lt_of_le h with he | hlt2
        · exact absurd (scanItems_inj ih cs x' hxm f hf he.symm) hxf
        · exact hlt2
      have hyid : y'.id = ⟨true, y'.id.num⟩ :=
        itemId_eta_true (scanItems_flag ih cs y' hym) hydir
      have hxp2 : x'.parent_id = some ⟨true, y'.id.num⟩ :=
        hxp.trans (congrArg some hyid)
      obtain ⟨k', hk', hkk⟩ := scanItems_closed ih cs x' hxm y'.id.num hxp2
        (Nat.zero_le _) f hf ihs hxgt
      rw [hfo] at hk'
      cases o with
      | none => cases hk'
      | some q =>
        obtain ⟨w2, hw2, h1, h2, hlt2⟩ :=
          scanItems_parent_witness ih cs c hc q hco
        have hqk : q.num = k' := congrArg ItemId.num (Option.some_inj.mp hk')
        have hcy := scanItems_desc_lt ih cs c y' hdsc
        omega

/-- Root listing for the C7 witness: a directory `d` holding file `a`,
next to file `z`. -/
def c7cs : FSList :=
  FSList.cons (FSEntry.dir "d" (FSList.cons (FSEntry.file "a" 1) FSList.nil))
    (FSList.cons (FSEntry.file "z" 2) FSList.nil)

/-- The node of directory `d` in the scan of `c7cs`. -/
def c7dirItem : Item := ⟨⟨true, 0⟩, "d", 1, true, 0, none, [⟨false, 1⟩], ""⟩

/-- The node of file `d/a` in the scan of `c7cs`. -/
def c7aItem : Item := ⟨⟨false, 1⟩, "a", 1, false, 1, some ⟨true, 0⟩, [], ""⟩

/-- The node of file `z` in the scan of `c7cs`. -/
def c7zItem : Item := ⟨⟨false, 2⟩, "z", 2, false, 0, none, [], ""⟩

/-- C7: the scan's emitted node list is depth-first pre-order with sorted
children blocks: (a) each node's id number is its position in the emitted
list; (b) a directory node precedes every node of its subtree; (c) every
node's `children` lists exactly the result nodes whose `parent_id` is its
id, in emitted order, and every children block — the level-0 block and each
directory node's block — is all directory nodes first, then all file nodes,
each block sorted case-insensitively by name; (d) a directory child and its
entire subtree precede every file child of the same parent. -/
theorem c7_preorder_sorted_children (cs : FSList) (ih : Bool) :
    ((scan_directory (some cs) ih).items.map fun x => x.id.num) =
      List.range' 0 (scan_directory (some cs) ih).items.length ∧
    (∀ p x, IsDesc (scan_directory (some cs) ih).items p x →
      p.id.num < x.id.num) ∧
    (∀ p ∈ (scan_directory (some cs) ih).items,
      p.children = ((scan_directory (some cs) ih).items.filter
        fun c => c.parent_id == some p.id).map fun c => c.id) ∧
    ShapeOk ((scan_directory (some cs) ih).items.filter
      fun c => c.parent_id == (none : Option ItemId)) ∧
    (∀ p ∈ (scan_directory (some cs) ih).items, p.is_dir = true →
      ShapeOk ((scan_directory (some cs) ih).items.filter
        fun c => c.parent_id == some p.id)) ∧
    (∀ o : Option ItemId,
      ∀ c ∈ (scan_directory (some cs) ih).items,
      ∀ f ∈ (scan_directory (some cs) ih).items,
        c.parent_id = o → f.parent_id = o →
        c.is_dir = true → f.is_dir = false →
        c.id.num < f.id.num ∧
        ∀ x, IsDesc (scan_directory (some cs) ih).items c x →
          x.id.num < f.id.num) :=
  ⟨scanItems_nums ih cs, scanItems_desc_lt ih cs, scanItems_children ih cs,
    scanItems_shape_top ih cs, scanItems_shape_inner ih cs,
    scanItems_subtrees_before_files ih cs⟩

/-- C7 witness: in the scan of `c7cs`, the directory child `d` of the root
and its descendant `d/a` both precede the root's file child `z`. -/
theorem c7_preorder_sorted_children_witness :
    c7dirItem.id.num < c7zItem.id.num ∧
    c7aItem.id.num < c7zItem.id.num := by
  have h := (c7_preorder_sorted_children c7cs true).2.2.2.2.2 none
    c7dirItem (by decide) c7zItem (by decide) rfl rfl rfl rfl
  exact ⟨h.1, h.2 c7aItem (IsDesc.direct (by decide) rfl)⟩
